import Mathlib

/-!
# leptjson: a shallow embedding of `leptjson.c` and its parse contract

The C program is translated function by function.

* A `const char *` into the immutable, NUL-terminated input is the list of
  bytes from the pointed-at position up to (not including) the final
  terminator.  `*p` is `peek p` (the head, or `0` at the end of the list),
  `p++` is `List.tail`, `p[i]` is `p.getD i 0`.  A `0` byte inside the list
  is read as a terminator exactly as the C code reads it.
* Bytes are natural numbers.  Every comparison in the source is against an
  ASCII constant, so signedness of `char` makes no difference.
* `size_t` values are natural numbers in the functions that `lept_parse`
  runs: it pushes one byte at a time, the scratch stack never holds more
  bytes than the input text has, so no `size_t` computation of a parse wraps
  for an input that fits in the address space.  `lept_context_push` taken on
  its own, for an argument of any magnitude, is `lept_context_push_sz`, in
  arithmetic modulo `2^64`.
* A failed `assert` and a loop that never ends are explicit results
  (`Fault`), so "returns" is always a statement about `Except.ok`.
  Allocation (`malloc`, `realloc`) always succeeds.
* `strtod` and `errno` belong to the C library, not to this repository;
  they are modelled below from the C standard.
-/

namespace Leptjson

/-! ## Types of `leptjson.h` -/

/-- The enum `lept_type` of `leptjson.h`. -/
inductive lept_type
  | LEPT_NULL | LEPT_FALSE | LEPT_TRUE | LEPT_NUMBER | LEPT_STRING | LEPT_ARRAY | LEPT_OBJECT
  deriving DecidableEq, Repr

/-- Modelled from the spec: the status codes of `lept_parse`.  The header under
`src/` declares the first four; `LEPT_PARSE_NUMBER_TOO_BIG` and
`LEPT_PARSE_MISS_QUOTATION_MARK` are used by `leptjson.c` but their
declaration is missing, and are taken from the closed list of the spec
(`Ok`, `ExpectValue`, `InvalidValue`, `RootNotSingular`, `NumberTooBig`,
`MissQuotationMark`). -/
inductive lept_status
  | LEPT_PARSE_OK
  | LEPT_PARSE_EXPECT_VALUE
  | LEPT_PARSE_INVALID_VALUE
  | LEPT_PARSE_ROOT_NOT_SINGULAR
  | LEPT_PARSE_NUMBER_TOO_BIG
  | LEPT_PARSE_MISS_QUOTATION_MARK
  deriving DecidableEq, Repr

/-- How a call can fail to return: an `assert` of the source does not hold, or a
loop of the source never ends. -/
inductive Fault
  | assertion
  | diverges
  deriving DecidableEq, Repr

deriving instance DecidableEq for Except

/-! ## The C library: `double`, `errno`, `strtod` -/

/-- The exact quantity `(-1)^neg * mant * base^exp` that a numeral denotes
(`base` is 10 for a decimal numeral and 2 for a hexadecimal one). -/
structure Exact where
  neg : Bool
  mant : Nat
  base : Nat
  exp : Int
  deriving DecidableEq, Repr

/-- A `double`.  `finite q` stands for the double nearest to the exact quantity
`q`; rounding itself is not modelled.  `inf false` is `HUGE_VAL` and
`inf true` is `-HUGE_VAL`. -/
inductive Double
  | finite (q : Exact)
  | inf (neg : Bool)
  deriving DecidableEq, Repr

/-- The value of `ERANGE` (`errno.h`, Linux). -/
def ERANGE : Nat := 34

/-- The constant `HUGE_VAL` of `math.h`. -/
def HUGE_VAL : Double := Double.inf false

/-- Unary minus on doubles. -/
def Double.negate : Double → Double
  | Double.finite q => Double.finite ⟨!q.neg, q.mant, q.base, q.exp⟩
  | Double.inf n => Double.inf (!n)

/-- The first byte at a `const char *`: `*p`. -/
def peek (p : List Nat) : Nat := p.headD 0

/-- The C macro `ISDIGIT(ch)`: `'0' <= ch && ch <= '9'`. -/
def ISDIGIT (ch : Nat) : Bool := decide (48 ≤ ch) && decide (ch ≤ 57)

/-- The C macro `ISDIGIT1TO9(ch)`: `'1' <= ch && ch <= '9'`. -/
def ISDIGIT1TO9 (ch : Nat) : Bool := decide (49 ≤ ch) && decide (ch ≤ 57)

/-- The C library's `isspace` in the "C" locale. -/
def isspace (ch : Nat) : Bool :=
  ch == 32 || ch == 9 || ch == 10 || ch == 11 || ch == 12 || ch == 13

/-- The C library's `isxdigit`. -/
def isxdigit (ch : Nat) : Bool :=
  ISDIGIT ch || (decide (97 ≤ ch) && decide (ch ≤ 102)) || (decide (65 ≤ ch) && decide (ch ≤ 70))

/-- Value of a hexadecimal digit. -/
def xdigitVal (ch : Nat) : Nat :=
  if ISDIGIT ch then ch - 48 else if 97 ≤ ch then ch - 97 + 10 else ch - 65 + 10

/-- Value of a run of decimal digits. -/
def decVal (ds : List Nat) : Nat := ds.foldl (fun a d => 10 * a + (d - 48)) 0

/-- Value of a run of hexadecimal digits. -/
def hexVal (ds : List Nat) : Nat := ds.foldl (fun a d => 16 * a + xdigitVal d) 0

/-- The optional exponent part of a `strtod` numeral: a marker byte (`e`/`E`, or
`p`/`P` for a hexadecimal numeral), an optional sign and at least one decimal
digit.  When the part is malformed it is not part of the numeral and the
exponent is `0`. -/
def strtodExp (m1 m2 : Nat) (p : List Nat) : Int :=
  if peek p = m1 ∨ peek p = m2 then
    let q := p.tail
    let neg := decide (peek q = 45)
    let r := if peek q = 43 ∨ peek q = 45 then q.tail else q
    let ds := r.takeWhile ISDIGIT
    if ds = [] then 0 else if neg then -(decVal ds : Int) else (decVal ds : Int)
  else 0

/-- A decimal numeral `d.d e±d` at `p` (after the optional sign): mantissa, base
10 and exponent.  A text in which no numeral starts denotes zero (no
conversion is performed). -/
def strtodDec (p : List Nat) : Nat × Nat × Int :=
  let di := p.takeWhile ISDIGIT
  let dr := p.dropWhile ISDIGIT
  let df := if peek dr = 46 then dr.tail.takeWhile ISDIGIT else []
  let dr2 := if peek dr = 46 then dr.tail.dropWhile ISDIGIT else dr
  if di ++ df = [] then (0, 10, 0)
  else (decVal (di ++ df), 10, strtodExp 101 69 dr2 - (df.length : Int))

/-- The digits `h.h p±d` of a hexadecimal numeral at `p` (after `0x`): mantissa,
base 2 and exponent; `none` when no hexadecimal digit follows the `0x`. -/
def strtodHex (p : List Nat) : Option (Nat × Nat × Int) :=
  let hi := p.takeWhile isxdigit
  let hr := p.dropWhile isxdigit
  let hf := if peek hr = 46 then hr.tail.takeWhile isxdigit else []
  let hr2 := if peek hr = 46 then hr.tail.dropWhile isxdigit else hr
  if hi ++ hf = [] then none
  else some (hexVal (hi ++ hf), 2, strtodExp 112 80 hr2 - 4 * (hf.length : Int))

/-- The magnitude a numeral denotes, for a text that starts after the optional
sign: a hexadecimal numeral when the text starts with `0x` or `0X` and a
hexadecimal digit follows, a decimal numeral otherwise.  The `INF` and `NAN`
forms of the C grammar are not modelled: the scanner of this program calls
`strtod` only on text whose first byte after an optional `-` is a digit. -/
def strtodMagnitude (p : List Nat) : Nat × Nat × Int :=
  if peek p = 48 ∧ (peek p.tail = 120 ∨ peek p.tail = 88) then
    match strtodHex p.tail.tail with
    | some r => r
    | none => strtodDec p
  else strtodDec p

/-- The exact quantity `strtod` reads from the text at `nptr`: optional white
space, an optional sign, then the longest numeral. -/
def strtodExact (nptr : List Nat) : Exact :=
  let p := nptr.dropWhile isspace
  let neg := decide (peek p = 45)
  let q := if peek p = 43 ∨ peek p = 45 then p.tail else p
  let m := strtodMagnitude q
  ⟨neg, m.1, m.2.1, m.2.2⟩

/-- Overflow of a conversion to `double` under the default rounding
(to nearest, ties to even): the magnitude is at least `2^1024 - 2^970`, half
an ulp above the largest finite double `2^1024 - 2^971`. -/
def Exact.overflows (q : Exact) : Bool :=
  if 0 ≤ q.exp then decide (2 ^ 1024 - 2 ^ 970 ≤ q.mant * q.base ^ q.exp.toNat)
  else decide ((2 ^ 1024 - 2 ^ 970) * q.base ^ (-q.exp).toNat ≤ q.mant)

/-- Underflow of a conversion to `double`: a non-zero magnitude below the least
normal double `2^-1022`. -/
def Exact.underflows (q : Exact) : Bool :=
  decide (q.mant ≠ 0) &&
    (if 0 ≤ q.exp then decide (q.mant * q.base ^ q.exp.toNat * 2 ^ 1022 < 1)
     else decide (q.mant * 2 ^ 1022 < q.base ^ (-q.exp).toNat))

/-- The C library's `strtod(nptr, NULL)`, with `errno` passed in and out.  On
overflow it returns plus or minus `HUGE_VAL` and stores `ERANGE` in `errno`; on
underflow it stores `ERANGE` (as glibc does; the C standard leaves that to
the library); otherwise `errno` is left as it was. -/
def strtod (errno : Nat) (nptr : List Nat) : Double × Nat :=
  let q := strtodExact nptr
  if q.overflows then (Double.inf q.neg, ERANGE)
  else if q.underflows then (Double.finite q, ERANGE)
  else (Double.finite q, errno)

/-! ## The value and the parse context -/

/-- Modelled from the spec: the value `lept_value`.  The header under `src/`
declares only the field `type`; `leptjson.c` also uses the payload `u.n`
(a double) and `u.s.s`, `u.s.len` (an owned byte buffer and its length), as the
spec's data model describes them.  `s` is `some buf` while `u.s.s` points to
a live allocated buffer holding `buf`, and `none` when there is no such
buffer (never allocated, or released by `free`).  The payloads are separate
fields: that `u.n` and `u.s` share storage is not modelled. -/
structure lept_value where
  type : lept_type
  n : Double
  s : Option (List Nat)
  len : Nat
  deriving DecidableEq, Repr

/-- The struct `lept_context`: the cursor `json`, the scratch buffer `stack`
(`none` is the `NULL` pointer, `some buf` a live buffer of `size` bytes), its
capacity `size` and used length `top`. -/
structure lept_context where
  json : List Nat
  stack : Option (List Nat)
  size : Nat
  top : Nat
  deriving DecidableEq, Repr

/-- The constant `LEPT_PARSE_STACK_INIT_SIZE`. -/
def LEPT_PARSE_STACK_INIT_SIZE : Nat := 256

/-- The ASCII bytes of a text, used to write inputs down. -/
def bytes (t : String) : List Nat := t.toList.map Char.toNat

open lept_type lept_status

/-- Modelled from the spec: `lept_init`, which `lept_parse` calls but whose
definition is missing from `src/` ("Initialize value to `Null`"): it sets the
tag and touches nothing else. -/
def lept_init (v : lept_value) : lept_value := { v with type := LEPT_NULL }

/-! ## The scratch stack -/

/-- The loop `while (c->top + size >= c->size) c->size += c->size >> 1;` of
`lept_context_push`, with `need = c->top + size`.  It is run with a bound on
the number of iterations; `none` means the bound was reached. -/
def lept_context_push.grow : Nat → Nat → Nat → Option Nat
  | 0, _, _ => none
  | fuel + 1, need, size =>
    if need ≥ size then lept_context_push.grow fuel need (size + size / 2) else some size

/-- The C library's `realloc(old, n)`: a buffer of `n` bytes that starts with
the bytes of `old` (all of `old` when `n` is not smaller); the bytes added
are indeterminate in C and are `0` here. -/
def realloc (old : Option (List Nat)) (n : Nat) : List Nat :=
  ((old.getD []) ++ List.replicate n 0).take n

/-- The function `lept_context_push`: reserves `size` bytes on the scratch stack
and returns the context with the offset of the reserved region in
`c->stack` (the C pointer `c->stack + old top`).  The growth loop is given
`c->top + size + 2` iterations, which is enough whenever it ends at all:
from a capacity of at least 2 every iteration adds at least 1, and from a
capacity of 1 the capacity never changes.  Sizes are natural numbers here, as
`lept_parse` meets them; `lept_context_push_sz` is the same function in
`size_t` arithmetic. -/
def lept_context_push (c : lept_context) (size : Nat) : Except Fault (lept_context × Nat) :=
  if size = 0 then Except.error Fault.assertion
  else if c.top + size ≥ c.size then
    let size0 := if c.size = 0 then LEPT_PARSE_STACK_INIT_SIZE else c.size
    match lept_context_push.grow (c.top + size + 2) (c.top + size) size0 with
    | none => Except.error Fault.diverges
    | some size1 =>
      Except.ok ({ c with size := size1, stack := some (realloc c.stack size1), top := c.top + size },
        c.top)
  else Except.ok ({ c with top := c.top + size }, c.top)

/-- The function `lept_context_pop`: drops `size` bytes and returns the context
with the memory readable at the returned pointer `c->stack + new top`
(`none` when that pointer is `NULL`). -/
def lept_context_pop (c : lept_context) (size : Nat) :
    Except Fault (lept_context × Option (List Nat)) :=
  if c.top < size then Except.error Fault.assertion
  else Except.ok ({ c with top := c.top - size }, c.stack.map (fun b => b.drop (c.top - size)))

/-- The number of values of the type `size_t`, taken as 64 bits wide:
arithmetic on `size_t` is modulo this number. -/
def SIZE_MODULUS : Nat := 2 ^ 64

/-- The loop `while (c->top + size >= c->size) c->size += c->size >> 1;` of
`lept_context_push` in `size_t` arithmetic, with `need = c->top + size` as the
machine computes it: the sum `c->size + (c->size >> 1)` wraps around.  It is
run for at most `fuel` iterations; `none` means it has not ended by then. -/
def lept_context_push_sz.grow : Nat → Nat → Nat → Option Nat
  | 0, _, _ => none
  | fuel + 1, need, size =>
    if need ≥ size then
      lept_context_push_sz.grow fuel need ((size + size / 2) % SIZE_MODULUS)
    else some size

/-- The function `lept_context_push` in `size_t` arithmetic, for arguments of
any magnitude: the sum `c->top + size` wraps around in the test, in the loop
and in `c->top += size`.  The growth loop is run for at most `fuel`
iterations, and `Fault.diverges` is the result when it has not ended by
then.  (`lept_context_pop` needs no second form: its `assert` rules out the
only subtraction that could wrap.) -/
def lept_context_push_sz (fuel : Nat) (c : lept_context) (size : Nat) :
    Except Fault (lept_context × Nat) :=
  if size = 0 then Except.error Fault.assertion
  else if (c.top + size) % SIZE_MODULUS ≥ c.size then
    let size0 := if c.size = 0 then LEPT_PARSE_STACK_INIT_SIZE else c.size
    match lept_context_push_sz.grow fuel ((c.top + size) % SIZE_MODULUS) size0 with
    | none => Except.error Fault.diverges
    | some size1 =>
      Except.ok ({ c with size := size1, stack := some (realloc c.stack size1),
                          top := (c.top + size) % SIZE_MODULUS },
        c.top)
  else Except.ok ({ c with top := (c.top + size) % SIZE_MODULUS }, c.top)

/-- The macro `PUTC(c, ch)`: push one byte and store `ch` in it. -/
def PUTC (c : lept_context) (ch : Nat) : Except Fault lept_context :=
  match lept_context_push c 1 with
  | Except.error e => Except.error e
  | Except.ok (c1, ret) => Except.ok { c1 with stack := c1.stack.map (fun b => b.set ret ch) }

/-! ## The value accessors -/

/-- The function `lept_get_type`. -/
def lept_get_type (v : lept_value) : lept_type := v.type

/-- The function `lept_free`: `free(v->u.s.s)` when the tag is `LEPT_STRING`, then
the tag becomes `LEPT_NULL`. -/
def lept_free (v : lept_value) : lept_value :=
  if v.type = LEPT_STRING then { v with s := none, type := LEPT_NULL }
  else { v with type := LEPT_NULL }

/-- The function `lept_get_boolean`. -/
def lept_get_boolean (v : lept_value) : Except Fault Nat :=
  if v.type = LEPT_TRUE then Except.ok 1
  else if v.type = LEPT_FALSE then Except.ok 0
  else Except.error Fault.assertion

/-- The function `lept_set_boolean`. -/
def lept_set_boolean (v : lept_value) (b : Int) : lept_value :=
  { lept_free v with type := if b ≠ 0 then LEPT_TRUE else LEPT_FALSE }

/-- The function `lept_get_number`. -/
def lept_get_number (v : lept_value) : Except Fault Double :=
  if v.type = LEPT_NUMBER then Except.ok v.n else Except.error Fault.assertion

/-- The function `lept_set_number`. -/
def lept_set_number (v : lept_value) (n : Double) : lept_value :=
  { lept_free v with n := n, type := LEPT_NUMBER }

/-- The function `lept_get_string`: the memory at `v->u.s.s`. -/
def lept_get_string (v : lept_value) : Except Fault (Option (List Nat)) :=
  if v.type = LEPT_STRING then Except.ok v.s else Except.error Fault.assertion

/-- The function `lept_get_string_length`. -/
def lept_get_string_length (v : lept_value) : Except Fault Nat :=
  if v.type = LEPT_STRING then Except.ok v.len else Except.error Fault.assertion

/-- The function `lept_set_string`.  `s` is the memory readable at the source
pointer (`none` for `NULL`); `memcpy` takes its first `len` bytes, and the
caller has to supply that many. -/
def lept_set_string (v : lept_value) (s : Option (List Nat)) (len : Nat) :
    Except Fault lept_value :=
  if s = none ∧ len ≠ 0 then Except.error Fault.assertion
  else
    Except.ok { lept_free v with
      s := some ((s.getD []).take len ++ [0]), len := len, type := LEPT_STRING }

/-! ## The scanners -/

/-- The macro `PASS_DIGITS(p)`: `while (ISDIGIT(*p)) p++;`. -/
def PASS_DIGITS (p : List Nat) : List Nat := p.dropWhile ISDIGIT

/-- The test of the loop of `lept_parse_whitespace`. -/
def iswhitespace (ch : Nat) : Bool := ch == 32 || ch == 9 || ch == 10 || ch == 13

/-- The function `lept_parse_whitespace`. -/
def lept_parse_whitespace (c : lept_context) : lept_context :=
  { c with json := c.json.dropWhile iswhitespace }

/-- The `for` loop of `lept_parse_literal` over the rest of the literal, started
at index `i`: `some i` with the final index when every byte matched,
`none` when the loop returned `LEPT_PARSE_INVALID_VALUE`. -/
def lept_parse_literal.loop (json : List Nat) : List Nat → Nat → Option Nat
  | [], i => some i
  | l :: ls, i =>
    if l = 0 then some i
    else if l ≠ json.getD i 0 then none
    else lept_parse_literal.loop json ls (i + 1)

/-- The function `lept_parse_literal`; `literal` is the text of the literal. -/
def lept_parse_literal (c : lept_context) (v : lept_value) (literal : List Nat) (t : lept_type) :
    Except Fault (lept_status × lept_context × lept_value) :=
  if peek c.json ≠ peek literal then Except.error Fault.assertion
  else
    let c1 := { c with json := c.json.tail }
    match lept_parse_literal.loop c1.json literal.tail 0 with
    | none => Except.ok (LEPT_PARSE_INVALID_VALUE, c1, v)
    | some i => Except.ok (LEPT_PARSE_OK, { c1 with json := c1.json.drop i }, { v with type := t })

/-- The exponent part of the validation in `lept_parse_number`. -/
def lept_parse_number.exp (p : List Nat) : Option (List Nat) :=
  if peek p = 101 ∨ peek p = 69 then
    let q := p.tail
    let r := if peek q = 43 ∨ peek q = 45 then q.tail else q
    if !ISDIGIT (peek r) then none else some (PASS_DIGITS r.tail)
  else some p

/-- The fraction part of the validation in `lept_parse_number`, followed by the
exponent part. -/
def lept_parse_number.frac (p : List Nat) : Option (List Nat) :=
  if peek p = 46 then
    if !ISDIGIT (peek p.tail) then none else lept_parse_number.exp (PASS_DIGITS p.tail.tail)
  else lept_parse_number.exp p

/-- The validation in `lept_parse_number` (from "validate number begin" to
"validate number end"): `none` when it returns `LEPT_PARSE_INVALID_VALUE`,
otherwise the lookahead pointer `p` after the validated span. -/
def lept_parse_number.validate (json : List Nat) : Option (List Nat) :=
  let p := if peek json = 45 then json.tail else json
  if ISDIGIT1TO9 (peek p) then lept_parse_number.frac (PASS_DIGITS p.tail)
  else if peek p = 48 then lept_parse_number.frac p.tail
  else none

/-- The function `lept_parse_number`.  `errno` is the value of the C library's
`errno` when the function is entered; the program never assigns it. -/
def lept_parse_number (errno : Nat) (c : lept_context) (v : lept_value) :
    lept_status × lept_context × lept_value :=
  match lept_parse_number.validate c.json with
  | none => (LEPT_PARSE_INVALID_VALUE, c, v)
  | some p =>
    let r := strtod errno c.json
    if r.2 = ERANGE ∧ (r.1 = HUGE_VAL ∨ r.1 = HUGE_VAL.negate) then
      (LEPT_PARSE_NUMBER_TOO_BIG, { c with json := p }, { v with n := r.1, type := LEPT_NULL })
    else (LEPT_PARSE_OK, { c with json := p }, { v with n := r.1, type := LEPT_NUMBER })

/-- The loop `while (1)` of `lept_parse_string`, with the lookahead pointer
`p`.  It ends because every iteration that continues consumes a byte and the
end of the text is the `'\0'` case.  `head` is the value `top` had when
`lept_parse_string` was entered and the loop only pushes, so `head <= c->top`
and the unsigned difference `c->top - head` does not wrap. -/
def lept_parse_string.loop (head : Nat) :
    List Nat → lept_context → lept_value → Except Fault (lept_status × lept_context × lept_value)
  | [], c, v => Except.ok (LEPT_PARSE_MISS_QUOTATION_MARK, { c with top := head }, v)
  | ch :: p, c, v =>
    if ch = 34 then
      let len := c.top - head
      match lept_context_pop c len with
      | Except.error e => Except.error e
      | Except.ok (c1, ptr) =>
        match lept_set_string v ptr len with
        | Except.error e => Except.error e
        | Except.ok v1 => Except.ok (LEPT_PARSE_OK, { c1 with json := p }, v1)
    else if ch = 0 then
      Except.ok (LEPT_PARSE_MISS_QUOTATION_MARK, { c with top := head }, v)
    else
      match PUTC c ch with
      | Except.error e => Except.error e
      | Except.ok c1 => lept_parse_string.loop head p c1 v

/-- The function `lept_parse_string`. -/
def lept_parse_string (c : lept_context) (v : lept_value) :
    Except Fault (lept_status × lept_context × lept_value) :=
  if peek c.json ≠ 34 then Except.error Fault.assertion
  else
    let c1 := { c with json := c.json.tail }
    lept_parse_string.loop c.top c1.json c1 v

/-- The function `lept_parse_value`. -/
def lept_parse_value (errno : Nat) (c : lept_context) (v : lept_value) :
    Except Fault (lept_status × lept_context × lept_value) :=
  if peek c.json = 110 then lept_parse_literal c v (bytes "null") LEPT_NULL
  else if peek c.json = 116 then lept_parse_literal c v (bytes "true") LEPT_TRUE
  else if peek c.json = 102 then lept_parse_literal c v (bytes "false") LEPT_FALSE
  else if peek c.json = 34 then lept_parse_string c v
  else if peek c.json = 0 then Except.ok (LEPT_PARSE_EXPECT_VALUE, c, v)
  else Except.ok (lept_parse_number errno c v)

/-- The function `lept_parse`, from the prior state `v` of the output value and
the text `json`: the status returned and the value left in `*v`.  `errno` is
the value of the C library's `errno` at the call. -/
def lept_parse (errno : Nat) (v : lept_value) (json : List Nat) :
    Except Fault (lept_status × lept_value) :=
  let c0 : lept_context := ⟨json, none, 0, 0⟩
  let v0 := lept_init v
  let c1 := lept_parse_whitespace c0
  match lept_parse_value errno c1 v0 with
  | Except.error e => Except.error e
  | Except.ok (ret, c2, v2) =>
    let r :=
      if ret = LEPT_PARSE_OK then
        let c3 := lept_parse_whitespace c2
        if peek c3.json ≠ 0 then (LEPT_PARSE_ROOT_NOT_SINGULAR, c3, { v2 with type := LEPT_NULL })
        else (ret, c3, v2)
      else (ret, c2, v2)
    if r.2.1.top ≠ 0 then Except.error Fault.assertion
    else Except.ok (r.1, r.2.2)

end Leptjson

namespace Leptjson
open lept_type lept_status

/-! ## The grammar of the specification -/

/-- A decimal digit, `0` to `9`. -/
def Digit (b : Nat) : Prop := 48 ≤ b ∧ b ≤ 57

/-- A digit `1` to `9`. -/
def Digit19 (b : Nat) : Prop := 49 ≤ b ∧ b ≤ 57

instance (b : Nat) : Decidable (Digit b) := by
  unfold Digit
  infer_instance

instance (b : Nat) : Decidable (Digit19 b) := by
  unfold Digit19
  infer_instance

/-- The production `int = "0" | digit1-9 *digit`. -/
def IntPart (l : List Nat) : Prop :=
  l = [48] ∨ ∃ d ds, l = d :: ds ∧ Digit19 d ∧ ∀ b ∈ ds, Digit b

/-- The production `frac = "." 1*digit`. -/
def FracPart (l : List Nat) : Prop :=
  ∃ ds, l = 46 :: ds ∧ ds ≠ [] ∧ ∀ b ∈ ds, Digit b

/-- The production `exp = ("e"|"E") ["+"|"-"] 1*digit`. -/
def ExpPart (l : List Nat) : Prop :=
  ∃ m sg ds, l = m :: (sg ++ ds) ∧ (m = 101 ∨ m = 69) ∧ (sg = [] ∨ sg = [43] ∨ sg = [45]) ∧
    ds ≠ [] ∧ ∀ b ∈ ds, Digit b

/-- The production `number = ["-"] int [frac] [exp]`, for a whole text. -/
def NumberGrammar (s : List Nat) : Prop :=
  ∃ sg i f e, s = sg ++ (i ++ (f ++ e)) ∧ (sg = [] ∨ sg = [45]) ∧ IntPart i ∧
    (f = [] ∨ FracPart f) ∧ (e = [] ∨ ExpPart e)

/-- The condition of the specification on the magnitude of a number text: it
exceeds the largest finite `double`, which is `2^1024 - 2^971`. -/
def Exact.exceedsLargestFinite (q : Exact) : Bool :=
  if 0 ≤ q.exp then decide (2 ^ 1024 - 2 ^ 971 < q.mant * q.base ^ q.exp.toNat)
  else decide ((2 ^ 1024 - 2 ^ 971) * q.base ^ (-q.exp).toNat < q.mant)

/-! ## Well-formed states and the growth step -/

/-- A scratch stack as `lept_parse` can hold it: either nothing was allocated
yet (`size = 0`, `top = 0`), or the buffer is live, has `size` bytes, and
`top <= size` with a capacity of at least 2. -/
def StackOk (c : lept_context) : Prop :=
  (c.size = 0 ∧ c.top = 0) ∨
    (2 ≤ c.size ∧ c.top ≤ c.size ∧ ∃ buf, c.stack = some buf ∧ buf.length = c.size)

/-- The bytes in use on the scratch stack: the first `top` bytes of the buffer. -/
def used (c : lept_context) : List Nat := (c.stack.getD []).take c.top

/-- The invariant of the spec's data model: a value owns a live payload only
under the tag `String`. -/
def PayloadInvariant (v : lept_value) : Prop := v.type ≠ LEPT_STRING → v.s = none

/-- The body `c->size += c->size >> 1` of the growth loop of `lept_context_push`:
one growth step of the capacity. -/
def lept_context_push.step (size : Nat) : Nat := size + size / 2

/-- A value in the state the spec calls initial: `Null`, no payload. -/
def sampleValue : lept_value := ⟨LEPT_NULL, Double.finite ⟨false, 0, 10, 0⟩, none, 0⟩

/-! ## Pointer steps -/

theorem bytes_null : bytes "null" = [110, 117, 108, 108] := by decide

theorem bytes_true : bytes "true" = [116, 114, 117, 101] := by decide

theorem bytes_false : bytes "false" = [102, 97, 108, 115, 101] := by decide

@[simp] theorem peek_nil : peek [] = 0 := rfl

@[simp] theorem peek_cons (b : Nat) (l : List Nat) : peek (b :: l) = b := rfl

theorem dropWhile_ws_append (w l : List Nat) (hw : ∀ b ∈ w, iswhitespace b = true) :
    (w ++ l).dropWhile iswhitespace = l.dropWhile iswhitespace := by
  induction w with
  | nil => rfl
  | cons b w ih =>
    have hb : iswhitespace b = true := hw b (List.mem_cons_self b w)
    simp only [List.cons_append, List.dropWhile_cons, hb, if_true]
    exact ih (fun x hx => hw x (List.mem_cons_of_mem b hx))

theorem dropWhile_ws_cons (b : Nat) (l : List Nat) (hb : iswhitespace b = false) :
    (b :: l).dropWhile iswhitespace = b :: l := by
  simp [List.dropWhile_cons, hb]

/-- The whitespace skip stops at a terminator exactly when all bytes of the C
string (the bytes before the first `0`) are whitespace. -/
theorem peek_dropWhile_ws (s : List Nat) :
    peek (s.dropWhile iswhitespace) = 0 ↔ ∀ b ∈ s.takeWhile (fun x => x != 0), iswhitespace b = true := by
  induction s with
  | nil => simp
  | cons b s ih =>
    by_cases hb : iswhitespace b = true
    · have hb0 : b ≠ 0 := by
        intro h0
        rw [h0] at hb
        exact absurd hb (by decide)
      simp [List.dropWhile_cons, List.takeWhile_cons, hb, hb0, ih]
    · by_cases hb0 : b = 0
      · subst hb0
        simp [List.dropWhile_cons, List.takeWhile_cons, hb]
      · simp [List.dropWhile_cons, List.takeWhile_cons, hb, hb0]

/-! ## What each scanner can return -/

theorem lept_parse_literal_status (c : lept_context) (v : lept_value) (l : List Nat) (t : lept_type)
    (ret : lept_status) (c1 : lept_context) (v1 : lept_value)
    (h : lept_parse_literal c v l t = Except.ok (ret, c1, v1)) :
    c1.top = c.top ∧
      ((ret = LEPT_PARSE_INVALID_VALUE ∧ v1 = v) ∨ (ret = LEPT_PARSE_OK ∧ v1 = { v with type := t })) := by
  unfold lept_parse_literal at h
  split at h
  · simp at h
  · dsimp only at h
    split at h
    · simp only [Except.ok.injEq, Prod.mk.injEq] at h
      obtain ⟨h1, h2, h3⟩ := h
      subst h1 h2 h3
      simp
    · simp only [Except.ok.injEq, Prod.mk.injEq] at h
      obtain ⟨h1, h2, h3⟩ := h
      subst h1 h2 h3
      simp

theorem lept_parse_number_status (errno : Nat) (c : lept_context) (v : lept_value) :
    (lept_parse_number errno c v).2.1.top = c.top ∧
      ((lept_parse_number errno c v).1 = LEPT_PARSE_INVALID_VALUE ∨
        (lept_parse_number errno c v).1 = LEPT_PARSE_NUMBER_TOO_BIG ∨
        (lept_parse_number errno c v).1 = LEPT_PARSE_OK) := by
  unfold lept_parse_number
  split
  · simp
  · dsimp only
    split <;> simp

theorem PUTC_top (c c1 : lept_context) (ch : Nat) (h : PUTC c ch = Except.ok c1) :
    c1.top = c.top + 1 ∧ c1.json = c.json := by
  unfold PUTC lept_context_push at h
  split at h
  · simp at h
  · rename_i c2 ret hpush
    simp only [Except.ok.injEq] at h
    subst h
    split at hpush
    · simp at hpush
    · split at hpush
      · dsimp only at hpush
        split at hpush
        · simp at hpush
        · simp only [Except.ok.injEq, Prod.mk.injEq] at hpush
          obtain ⟨h1, _⟩ := hpush
          subst h1
          simp
      · simp only [Except.ok.injEq, Prod.mk.injEq] at hpush
        obtain ⟨h1, _⟩ := hpush
        subst h1
        simp

theorem lept_parse_string_loop_status (head : Nat) (p : List Nat) :
    ∀ (c : lept_context) (v : lept_value) (ret : lept_status) (c1 : lept_context) (v1 : lept_value),
      head ≤ c.top →
      lept_parse_string.loop head p c v = Except.ok (ret, c1, v1) →
      c1.top = head ∧
        ((ret = LEPT_PARSE_MISS_QUOTATION_MARK ∧ v1 = v) ∨
          (ret = LEPT_PARSE_OK ∧ v1.type = LEPT_STRING)) := by
  induction p with
  | nil =>
    intro c v ret c1 v1 _ h
    simp only [lept_parse_string.loop, Except.ok.injEq, Prod.mk.injEq] at h
    obtain ⟨h1, h2, h3⟩ := h
    subst h1 h2 h3
    simp
  | cons ch p ih =>
    intro c v ret c1 v1 hle h
    unfold lept_parse_string.loop at h
    split at h
    · simp only [lept_context_pop, lept_set_string] at h
      split at h
      · simp at h
      · rename_i c2 ptr hpop
        split at hpop
        · simp at hpop
        · rename_i htop
          simp only [Except.ok.injEq, Prod.mk.injEq] at hpop
          obtain ⟨hc2, hptr⟩ := hpop
          split at h
          · simp at h
          · rename_i v2 hset
            split at hset
            · simp at hset
            · simp only [Except.ok.injEq] at hset
              simp only [Except.ok.injEq, Prod.mk.injEq] at h
              obtain ⟨h1, h2, h3⟩ := h
              subst h1 h2 h3 hset hc2
              refine ⟨?_, Or.inr ⟨rfl, rfl⟩⟩
              simp only
              omega
    · split at h
      · simp only [Except.ok.injEq, Prod.mk.injEq] at h
        obtain ⟨h1, h2, h3⟩ := h
        subst h1 h2 h3
        simp
      · split at h
        · simp at h
        · rename_i c2 hput
          have ht := (PUTC_top c c2 ch hput).1
          exact ih _ _ _ _ _ (by omega) h

theorem lept_parse_value_expect (errno : Nat) (c c1 : lept_context) (v v1 : lept_value)
    (h : lept_parse_value errno c v = Except.ok (LEPT_PARSE_EXPECT_VALUE, c1, v1)) :
    peek c.json = 0 := by
  unfold lept_parse_value at h
  split at h
  · have := (lept_parse_literal_status _ _ _ _ _ _ _ h).2
    simp at this
  · split at h
    · have := (lept_parse_literal_status _ _ _ _ _ _ _ h).2
      simp at this
    · split at h
      · have := (lept_parse_literal_status _ _ _ _ _ _ _ h).2
        simp at this
      · split at h
        · unfold lept_parse_string at h
          split at h
          · simp at h
          · dsimp only at h
            have := (lept_parse_string_loop_status c.top _ ⟨c.json.tail, c.stack, c.size, c.top⟩
              _ _ _ _ (le_refl c.top) h).2
            simp at this
        · split at h
          · assumption
          · simp only [Except.ok.injEq] at h
            have := (lept_parse_number_status errno c v).2
            rw [h] at this
            simp at this

/-- The status and value `lept_parse` returns, from what `lept_parse_value`
returned for the text after the leading whitespace. -/
theorem lept_parse_of_value (errno : Nat) (v : lept_value) (json : List Nat) (ret : lept_status)
    (c2 : lept_context) (v2 : lept_value)
    (h : lept_parse_value errno ⟨json.dropWhile iswhitespace, none, 0, 0⟩ (lept_init v) =
      Except.ok (ret, c2, v2))
    (htop : c2.top = 0) :
    lept_parse errno v json =
      Except.ok
        (if ret = LEPT_PARSE_OK then
          (if peek (c2.json.dropWhile iswhitespace) ≠ 0 then
            (LEPT_PARSE_ROOT_NOT_SINGULAR, { v2 with type := LEPT_NULL })
          else (LEPT_PARSE_OK, v2))
        else (ret, v2)) := by
  unfold lept_parse
  simp only [lept_parse_whitespace]
  rw [h]
  by_cases hr : ret = LEPT_PARSE_OK
  · by_cases hp : peek (c2.json.dropWhile iswhitespace) = 0
    · simp [hr, hp, htop]
    · simp [hr, hp, htop]
  · simp [hr, htop]

/-- Every `Except.ok` result of `lept_parse` comes from an `Except.ok` result of
`lept_parse_value` with an empty scratch stack. -/
theorem lept_parse_inv (errno : Nat) (v : lept_value) (json : List Nat) (r : lept_status)
    (v1 : lept_value) (h : lept_parse errno v json = Except.ok (r, v1)) :
    ∃ ret c2 v2,
      lept_parse_value errno ⟨json.dropWhile iswhitespace, none, 0, 0⟩ (lept_init v) =
        Except.ok (ret, c2, v2) ∧ c2.top = 0 ∧
      (r, v1) =
        (if ret = LEPT_PARSE_OK then
          (if peek (c2.json.dropWhile iswhitespace) ≠ 0 then
            (LEPT_PARSE_ROOT_NOT_SINGULAR, { v2 with type := LEPT_NULL })
          else (LEPT_PARSE_OK, v2))
        else (ret, v2)) := by
  cases hval : lept_parse_value errno ⟨json.dropWhile iswhitespace, none, 0, 0⟩ (lept_init v) with
  | error e =>
    unfold lept_parse at h
    simp only [lept_parse_whitespace] at h
    rw [hval] at h
    simp at h
  | ok res =>
    obtain ⟨ret, c2, v2⟩ := res
    have htop : c2.top = 0 := by
      by_contra hne
      unfold lept_parse at h
      simp only [lept_parse_whitespace] at h
      rw [hval] at h
      by_cases hr : ret = LEPT_PARSE_OK
      · by_cases hp : peek (c2.json.dropWhile iswhitespace) = 0
        · simp [hr, hp, hne] at h
        · simp [hr, hp, hne] at h
      · simp [hr, hne] at h
    refine ⟨ret, c2, v2, rfl, htop, ?_⟩
    have := lept_parse_of_value errno v json ret c2 v2 hval htop
    rw [this] at h
    simp only [Except.ok.injEq] at h
    exact h.symm

/-! ## The number scanner against the grammar -/

theorem ISDIGIT_iff (b : Nat) : ISDIGIT b = true ↔ Digit b := by
  simp [ISDIGIT, Digit]

theorem ISDIGIT1TO9_iff (b : Nat) : ISDIGIT1TO9 b = true ↔ Digit19 b := by
  simp [ISDIGIT1TO9, Digit19]

theorem cons_tail_of_peek (p : List Nat) (b : Nat) (h : peek p = b) (hb : b ≠ 0) :
    p = b :: p.tail := by
  cases p with
  | nil => exact absurd h.symm hb
  | cons a l =>
    simp only [peek_cons] at h
    simp [h]

/-- The macro `PASS_DIGITS` steps over a run of digits that is followed by a byte
that is not a digit (or by the end of the text). -/
theorem PASS_DIGITS_append (ds k : List Nat) (hds : ∀ b ∈ ds, Digit b)
    (hk : ISDIGIT (peek k) = false) : PASS_DIGITS (ds ++ k) = k := by
  induction ds with
  | nil =>
    cases k with
    | nil => rfl
    | cons a l =>
      simp only [peek_cons] at hk
      simp [PASS_DIGITS, List.dropWhile_cons, hk]
  | cons d ds ih =>
    have hd : ISDIGIT d = true := (ISDIGIT_iff d).2 (hds d (List.mem_cons_self d ds))
    have := ih (fun b hb => hds b (List.mem_cons_of_mem d hb))
    simpa [PASS_DIGITS, List.dropWhile_cons, hd] using this

/-- What `PASS_DIGITS` steps over is a run of digits. -/
theorem PASS_DIGITS_split (p : List Nat) :
    ∃ ds, p = ds ++ PASS_DIGITS p ∧ ∀ b ∈ ds, Digit b := by
  refine ⟨p.takeWhile ISDIGIT, ?_, ?_⟩
  · simp [PASS_DIGITS, List.takeWhile_append_dropWhile]
  · intro b hb
    exact (ISDIGIT_iff b).1 (List.mem_takeWhile_imp hb)

theorem exp_skip (k : List Nat) (h1 : peek k ≠ 101) (h2 : peek k ≠ 69) :
    lept_parse_number.exp k = some k := by
  simp [lept_parse_number.exp, h1, h2]

theorem exp_pass (e k : List Nat) (he : ExpPart e) (hk : ISDIGIT (peek k) = false) :
    lept_parse_number.exp (e ++ k) = some k := by
  obtain ⟨m, sg, ds, rfl, hm, hsg, hne, hds⟩ := he
  obtain ⟨d, ds1, rfl⟩ := List.exists_cons_of_ne_nil hne
  have hd : Digit d := hds d (List.mem_cons_self d ds1)
  have hd1 : ISDIGIT d = true := (ISDIGIT_iff d).2 hd
  have hrest := PASS_DIGITS_append ds1 k (fun b hb => hds b (List.mem_cons_of_mem d hb)) hk
  unfold Digit at hd
  have hm1 : peek ((m :: (sg ++ d :: ds1)) ++ k) = 101 ∨ peek ((m :: (sg ++ d :: ds1)) ++ k) = 69 := by
    simpa using hm
  rcases hsg with rfl | rfl | rfl
  · have h43 : d ≠ 43 := by omega
    have h45 : d ≠ 45 := by omega
    simp [lept_parse_number.exp, hm, h43, h45, hd1, hrest]
  · simp [lept_parse_number.exp, hm, hd1, hrest]
  · simp [lept_parse_number.exp, hm, hd1, hrest]

theorem exp_none (m : Nat) (sg rest : List Nat) (hm : m = 101 ∨ m = 69)
    (hsg : (sg = [] ∧ peek rest ≠ 43 ∧ peek rest ≠ 45) ∨ sg = [43] ∨ sg = [45])
    (hrest : ¬ Digit (peek rest)) :
    lept_parse_number.exp (m :: (sg ++ rest)) = none := by
  have hd : ISDIGIT (peek rest) = false := by
    rw [← Bool.not_eq_true, ISDIGIT_iff]
    exact hrest
  rcases hsg with ⟨rfl, h43, h45⟩ | rfl | rfl
  · simp [lept_parse_number.exp, hm, h43, h45, hd]
  · simp [lept_parse_number.exp, hm, hd]
  · simp [lept_parse_number.exp, hm, hd]

/-- A digit followed by `PASS_DIGITS`: the bytes stepped over are a non-empty
run of digits. -/
theorem digits_sound (q r : List Nat) (hd : ISDIGIT (peek q) = true)
    (hr : PASS_DIGITS q.tail = r) :
    ∃ ds, q = ds ++ r ∧ ds ≠ [] ∧ ∀ b ∈ ds, Digit b := by
  have hD := (ISDIGIT_iff _).1 hd
  have h0 : peek q ≠ 0 := by
    unfold Digit at hD
    omega
  have hq := cons_tail_of_peek q _ rfl h0
  obtain ⟨ds, hds, hall⟩ := PASS_DIGITS_split q.tail
  rw [hr] at hds
  refine ⟨peek q :: ds, ?_, by simp, ?_⟩
  · rw [hds] at hq
    simpa using hq
  · intro b hb
    rcases List.mem_cons.1 hb with rfl | hb
    · exact hD
    · exact hall b hb

theorem exp_sound (p r : List Nat) (h : lept_parse_number.exp p = some r) :
    ∃ e, p = e ++ r ∧ (e = [] ∨ ExpPart e) := by
  unfold lept_parse_number.exp at h
  by_cases hm : peek p = 101 ∨ peek p = 69
  · simp only [hm, if_true] at h
    have hm0 : peek p ≠ 0 := by
      rcases hm with hm | hm <;> rw [hm] <;> decide
    have hp : p = peek p :: p.tail := cons_tail_of_peek p _ rfl hm0
    by_cases hs : peek p.tail = 43 ∨ peek p.tail = 45
    · simp only [hs, if_true] at h
      by_cases hdig : ISDIGIT (peek p.tail.tail) = true
      · simp only [hdig, Bool.not_true, Bool.false_eq_true, if_false, Option.some.injEq] at h
        obtain ⟨ds, hds, hne, hall⟩ := digits_sound _ _ hdig h
        have hs0 : peek p.tail ≠ 0 := by
          rcases hs with hs | hs <;> rw [hs] <;> decide
        have hpt := cons_tail_of_peek p.tail _ rfl hs0
        refine ⟨peek p :: ([peek p.tail] ++ ds), ?_, Or.inr ?_⟩
        · rw [hds] at hpt
          rw [hpt] at hp
          simpa using hp
        · refine ⟨peek p, [peek p.tail], ds, rfl, hm, ?_, hne, hall⟩
          rcases hs with hs | hs <;> simp [hs]
      · simp [hdig] at h
    · simp only [hs, if_false] at h
      by_cases hdig : ISDIGIT (peek p.tail) = true
      · simp only [hdig, Bool.not_true, Bool.false_eq_true, if_false, Option.some.injEq] at h
        obtain ⟨ds, hds, hne, hall⟩ := digits_sound _ _ hdig h
        refine ⟨peek p :: ([] ++ ds), ?_, Or.inr ?_⟩
        · rw [hds] at hp
          simpa using hp
        · exact ⟨peek p, [], ds, rfl, hm, Or.inl rfl, hne, hall⟩
      · simp [hdig] at h
  · simp only [hm, if_false, Option.some.injEq] at h
    exact ⟨[], by simp [h], Or.inl rfl⟩

theorem frac_skip (k : List Nat) (h : peek k ≠ 46) :
    lept_parse_number.frac k = lept_parse_number.exp k := by
  simp [lept_parse_number.frac, h]

theorem frac_pass (f k : List Nat) (hf : FracPart f) (hk : ISDIGIT (peek k) = false) :
    lept_parse_number.frac (f ++ k) = lept_parse_number.exp k := by
  obtain ⟨ds, rfl, hne, hds⟩ := hf
  obtain ⟨d, ds1, rfl⟩ := List.exists_cons_of_ne_nil hne
  have hd1 : ISDIGIT d = true := (ISDIGIT_iff d).2 (hds d (List.mem_cons_self d ds1))
  have hrest := PASS_DIGITS_append ds1 k (fun b hb => hds b (List.mem_cons_of_mem d hb)) hk
  simp [lept_parse_number.frac, hd1, hrest]

theorem frac_none (rest : List Nat) (hrest : ¬ Digit (peek rest)) :
    lept_parse_number.frac (46 :: rest) = none := by
  have hd : ISDIGIT (peek rest) = false := by
    rw [← Bool.not_eq_true, ISDIGIT_iff]
    exact hrest
  simp [lept_parse_number.frac, hd]

theorem frac_sound (p r : List Nat) (h : lept_parse_number.frac p = some r) :
    ∃ f e, p = f ++ (e ++ r) ∧ (f = [] ∨ FracPart f) ∧ (e = [] ∨ ExpPart e) := by
  unfold lept_parse_number.frac at h
  by_cases hdot : peek p = 46
  · simp only [hdot, if_true] at h
    have hp : p = 46 :: p.tail := cons_tail_of_peek p 46 hdot (by decide)
    by_cases hdig : ISDIGIT (peek p.tail) = true
    · simp only [hdig, Bool.not_true, Bool.false_eq_true, if_false] at h
      obtain ⟨e, he, hE⟩ := exp_sound _ _ h
      obtain ⟨ds, hds, hne, hall⟩ := digits_sound p.tail _ hdig rfl
      refine ⟨46 :: ds, e, ?_, Or.inr ⟨ds, rfl, hne, hall⟩, hE⟩
      rw [he] at hds
      rw [hds] at hp
      simpa using hp
    · simp [hdig] at h
  · simp only [hdot, if_false] at h
    obtain ⟨e, he, hE⟩ := exp_sound _ _ h
    exact ⟨[], e, by simpa using he, Or.inl rfl, hE⟩

/-- After the optional sign and the integer part the validation goes on with
the fraction part, when the integer part is not followed by a digit. -/
theorem int_pass (sg i k : List Nat) (hsg : sg = [] ∨ sg = [45]) (hi : IntPart i)
    (hk : ISDIGIT (peek k) = false) :
    lept_parse_number.validate (sg ++ (i ++ k)) = lept_parse_number.frac k := by
  rcases hi with rfl | ⟨d, ds, rfl, hd, hds⟩
  · rcases hsg with rfl | rfl <;> simp [lept_parse_number.validate, ISDIGIT1TO9]
  · have hd1 : ISDIGIT1TO9 d = true := (ISDIGIT1TO9_iff d).2 hd
    have hrest := PASS_DIGITS_append ds k hds hk
    have h45 : d ≠ 45 := by
      unfold Digit19 at hd
      omega
    rcases hsg with rfl | rfl <;> simp [lept_parse_number.validate, hd1, hrest, h45]

/-- The validation accepts only what the grammar of the specification derives:
the bytes it steps over are a `number`. -/
theorem validate_sound (p r : List Nat) (h : lept_parse_number.validate p = some r) :
    ∃ span, p = span ++ r ∧ NumberGrammar span := by
  unfold lept_parse_number.validate at h
  dsimp only at h
  have key : ∀ q : List Nat,
      (if ISDIGIT1TO9 (peek q) = true then lept_parse_number.frac (PASS_DIGITS q.tail)
        else if peek q = 48 then lept_parse_number.frac q.tail else none) = some r →
      ∃ i f e, q = i ++ (f ++ (e ++ r)) ∧ IntPart i ∧ (f = [] ∨ FracPart f) ∧
        (e = [] ∨ ExpPart e) := by
    intro q hq
    by_cases h19 : ISDIGIT1TO9 (peek q) = true
    · simp only [h19, if_true] at hq
      obtain ⟨f, e, hfe, hF, hE⟩ := frac_sound _ _ hq
      have hD := (ISDIGIT1TO9_iff _).1 h19
      have h0 : peek q ≠ 0 := by
        unfold Digit19 at hD
        omega
      have hqc := cons_tail_of_peek q _ rfl h0
      obtain ⟨ds, hds, hall⟩ := PASS_DIGITS_split q.tail
      refine ⟨peek q :: ds, f, e, ?_, Or.inr ⟨peek q, ds, rfl, hD, hall⟩, hF, hE⟩
      rw [hfe] at hds
      rw [hds] at hqc
      simpa using hqc
    · simp only [h19, if_false] at hq
      by_cases h48 : peek q = 48
      · simp only [h48, if_true] at hq
        obtain ⟨f, e, hfe, hF, hE⟩ := frac_sound _ _ hq
        have hqc := cons_tail_of_peek q 48 h48 (by decide)
        refine ⟨[48], f, e, ?_, Or.inl rfl, hF, hE⟩
        rw [hfe] at hqc
        simpa using hqc
      · simp [h48] at hq
  by_cases hm : peek p = 45
  · simp only [hm, if_true] at h
    obtain ⟨i, f, e, hq, hI, hF, hE⟩ := key _ h
    have hp := cons_tail_of_peek p 45 hm (by decide)
    refine ⟨[45] ++ (i ++ (f ++ e)), ?_, [45], i, f, e, rfl, Or.inr rfl, hI, hF, hE⟩
    rw [hq] at hp
    simpa using hp
  · simp only [hm, if_false] at h
    obtain ⟨i, f, e, hq, hI, hF, hE⟩ := key _ h
    refine ⟨[] ++ (i ++ (f ++ e)), ?_, [], i, f, e, rfl, Or.inl rfl, hI, hF, hE⟩
    simpa using hq

/-- The validation accepts every text the grammar derives, and steps over all
of it. -/
theorem validate_complete (s : List Nat) (h : NumberGrammar s) :
    lept_parse_number.validate s = some [] := by
  obtain ⟨sg, i, f, e, rfl, hsg, hI, hF, hE⟩ := h
  have hexp : lept_parse_number.exp e = some [] := by
    rcases hE with rfl | hE
    · exact exp_skip [] (by decide) (by decide)
    · have := exp_pass e [] hE (by decide)
      simpa using this
  have hepeek : ISDIGIT (peek e) = false ∧ peek e ≠ 46 := by
    rcases hE with rfl | ⟨m, sg1, ds, rfl, hm, _⟩
    · exact ⟨by decide, by decide⟩
    · rcases hm with rfl | rfl <;> simp [ISDIGIT]
  have hfrac : lept_parse_number.frac (f ++ e) = some [] := by
    rcases hF with rfl | hF
    · rw [List.nil_append, frac_skip e hepeek.2]
      exact hexp
    · rw [frac_pass f e hF hepeek.1]
      exact hexp
  have hfpeek : ISDIGIT (peek (f ++ e)) = false := by
    rcases hF with rfl | ⟨ds, rfl, _⟩
    · simpa using hepeek.1
    · simp [ISDIGIT]
  rw [int_pass sg i (f ++ e) hsg hI hfpeek]
  exact hfrac

/-- The number grammar of the specification, decided by the validation of
`lept_parse_number`. -/
theorem NumberGrammar_iff (s : List Nat) :
    NumberGrammar s ↔ lept_parse_number.validate s = some [] := by
  constructor
  · exact validate_complete s
  · intro h
    obtain ⟨span, hs, hg⟩ := validate_sound s [] h
    rw [List.append_nil] at hs
    rw [hs]
    exact hg

/-! ## The number scanner inside `lept_parse` -/

/-- A text that starts with an optional `-` and an integer part starts with `-`
or a digit. -/
theorem number_start (sg i k : List Nat) (hsg : sg = [] ∨ sg = [45]) (hi : IntPart i) :
    peek (sg ++ (i ++ k)) = 45 ∨ Digit (peek (sg ++ (i ++ k))) := by
  rcases hsg with rfl | rfl
  · right
    rcases hi with rfl | ⟨d, ds, rfl, hd, _⟩
    · simp [Digit]
    · unfold Digit19 at hd
      simp only [List.nil_append, List.cons_append, peek_cons, Digit]
      omega
  · left
    simp

theorem NumberGrammar_start (s : List Nat) (h : NumberGrammar s) :
    peek s = 45 ∨ Digit (peek s) := by
  obtain ⟨sg, i, f, e, rfl, hsg, hI, _, _⟩ := h
  exact number_start sg i (f ++ e) hsg hI

theorem dropWhile_ws_number (y : List Nat) (h : peek y = 45 ∨ Digit (peek y)) :
    y.dropWhile iswhitespace = y := by
  cases y with
  | nil => rfl
  | cons b l =>
    simp only [peek_cons] at h
    apply dropWhile_ws_cons
    unfold Digit at h
    simp only [iswhitespace, Bool.or_eq_false_iff, beq_eq_false_iff_ne]
    omega

theorem lept_parse_value_number (errno : Nat) (c : lept_context) (v : lept_value)
    (h : peek c.json = 45 ∨ Digit (peek c.json)) :
    lept_parse_value errno c v = Except.ok (lept_parse_number errno c v) := by
  unfold Digit at h
  have h1 : peek c.json ≠ 110 := by omega
  have h2 : peek c.json ≠ 116 := by omega
  have h3 : peek c.json ≠ 102 := by omega
  have h4 : peek c.json ≠ 34 := by omega
  have h5 : peek c.json ≠ 0 := by omega
  simp [lept_parse_value, h1, h2, h3, h4, h5]

/-- A result of `lept_parse_value` that is `LEPT_PARSE_NUMBER_TOO_BIG`, or
`LEPT_PARSE_OK` with tag `LEPT_NUMBER`, was produced by `lept_parse_number`
after a successful validation. -/
theorem lept_parse_value_number_inv (errno : Nat) (c c2 : lept_context) (v v2 : lept_value)
    (ret : lept_status) (h : lept_parse_value errno c v = Except.ok (ret, c2, v2))
    (hret : ret = LEPT_PARSE_NUMBER_TOO_BIG ∨ (ret = LEPT_PARSE_OK ∧ v2.type = LEPT_NUMBER)) :
    lept_parse_number.validate c.json = some c2.json := by
  unfold lept_parse_value at h
  split at h
  · have := (lept_parse_literal_status _ _ _ _ _ _ _ h).2
    rcases this with ⟨h1, _⟩ | ⟨h1, h2⟩ <;> rcases hret with h3 | ⟨h3, h4⟩ <;> simp_all
  · split at h
    · have := (lept_parse_literal_status _ _ _ _ _ _ _ h).2
      rcases this with ⟨h1, _⟩ | ⟨h1, h2⟩ <;> rcases hret with h3 | ⟨h3, h4⟩ <;> simp_all
    · split at h
      · have := (lept_parse_literal_status _ _ _ _ _ _ _ h).2
        rcases this with ⟨h1, _⟩ | ⟨h1, h2⟩ <;> rcases hret with h3 | ⟨h3, h4⟩ <;> simp_all
      · split at h
        · unfold lept_parse_string at h
          split at h
          · simp at h
          · dsimp only at h
            have := (lept_parse_string_loop_status c.top _ ⟨c.json.tail, c.stack, c.size, c.top⟩
              _ _ _ _ (le_refl c.top) h).2
            rcases this with ⟨h1, _⟩ | ⟨h1, h2⟩ <;> rcases hret with h3 | ⟨h3, h4⟩ <;> simp_all
        · split at h
          · simp only [Except.ok.injEq, Prod.mk.injEq] at h
            rcases hret with h3 | ⟨h3, h4⟩ <;> simp_all
          · simp only [Except.ok.injEq] at h
            unfold lept_parse_number at h
            split at h
            · simp only [Prod.mk.injEq] at h
              rcases hret with h3 | ⟨h3, h4⟩ <;> simp_all
            · rename_i p hp
              dsimp only at h
              split at h
              · simp only [Prod.mk.injEq] at h
                rw [hp, ← h.2.1]
              · simp only [Prod.mk.injEq] at h
                rw [hp, ← h.2.1]

/-- The test `errno == ERANGE && (v->u.n == HUGE_VAL || v->u.n == -HUGE_VAL)` of
`lept_parse_number` holds exactly when the conversion overflows. -/
theorem too_big_test (errno : Nat) (s : List Nat) :
    ((strtod errno s).2 = ERANGE ∧
        ((strtod errno s).1 = HUGE_VAL ∨ (strtod errno s).1 = HUGE_VAL.negate)) ↔
      (strtodExact s).overflows = true := by
  unfold strtod
  dsimp only
  by_cases ho : (strtodExact s).overflows = true
  · simp only [ho, if_true, true_and, iff_true]
    cases (strtodExact s).neg <;> simp [HUGE_VAL, Double.negate]
  · simp only [ho, if_false, iff_false]
    by_cases hu : (strtodExact s).underflows = true
    · simp [hu, HUGE_VAL, Double.negate]
    · simp [hu, HUGE_VAL, Double.negate]

/-- The function `lept_parse_number` on a text the validation accepts. -/
theorem lept_parse_number_valid (errno : Nat) (c : lept_context) (v : lept_value) (p : List Nat)
    (h : lept_parse_number.validate c.json = some p) :
    lept_parse_number errno c v =
      if (strtodExact c.json).overflows = true then
        (LEPT_PARSE_NUMBER_TOO_BIG, { c with json := p },
          { v with n := Double.inf (strtodExact c.json).neg, type := LEPT_NULL })
      else
        (LEPT_PARSE_OK, { c with json := p },
          { v with n := Double.finite (strtodExact c.json), type := LEPT_NUMBER }) := by
  unfold lept_parse_number
  rw [h]
  dsimp only
  have ht := too_big_test errno c.json
  by_cases ho : (strtodExact c.json).overflows = true
  · rw [if_pos (ht.2 ho), if_pos ho]
    simp [strtod, ho]
  · rw [if_neg (fun hh => ho (ht.1 hh)), if_neg ho]
    by_cases hu : (strtodExact c.json).underflows = true <;> simp [strtod, ho, hu]

/-! ## The scratch stack and the string scanner -/

theorem take_succ_set (l : List Nat) (n a : Nat) (h : n < l.length) :
    (l.set n a).take (n + 1) = l.take n ++ [a] := by
  induction l generalizing n with
  | nil => simp at h
  | cons b l ih =>
    cases n with
    | zero => simp
    | succ n =>
      simp only [List.length_cons, Nat.add_lt_add_iff_right] at h
      simp [ih n h]

/-- The growth loop of `lept_context_push` ends from every capacity of at least
2, with a capacity above the need. -/
theorem grow_ok (fuel : Nat) :
    ∀ need size : Nat, 2 ≤ size → need + 2 ≤ fuel + size → 1 ≤ fuel →
      ∃ size1, lept_context_push.grow fuel need size = some size1 ∧ need < size1 ∧
        size ≤ size1 := by
  induction fuel with
  | zero =>
    intro need size _ _ h1
    omega
  | succ fuel ih =>
    intro need size h2 hf _
    unfold lept_context_push.grow
    by_cases hge : need ≥ size
    · rw [if_pos hge]
      have hhalf : 1 ≤ size / 2 := by omega
      obtain ⟨size1, hs, hlt, hle⟩ := ih need (size + size / 2) (by omega) (by omega) (by omega)
      exact ⟨size1, hs, hlt, by omega⟩
    · rw [if_neg hge]
      exact ⟨size, rfl, by omega, le_refl size⟩

theorem length_realloc (old : Option (List Nat)) (n : Nat) : (realloc old n).length = n := by
  simp [realloc]

theorem length_used (c : lept_context) (h : StackOk c) : (used c).length = c.top := by
  rcases h with ⟨_, h0⟩ | ⟨_, hle, buf, hb, hlen⟩
  · simp [used, h0]
  · simp [used, hb, hlen, hle]

/-- The macro `PUTC` on a well-formed scratch stack: it returns, the stack stays
well-formed, `top` grows by one, and the bytes in use are the old ones followed
by the new byte. -/
theorem PUTC_ok (c : lept_context) (ch : Nat) (h : StackOk c) :
    ∃ c1, PUTC c ch = Except.ok c1 ∧ StackOk c1 ∧ c1.top = c.top + 1 ∧ c1.json = c.json ∧
      used c1 = used c ++ [ch] := by
  unfold PUTC lept_context_push
  rw [if_neg (by decide)]
  by_cases hge : c.top + 1 ≥ c.size
  · rw [if_pos hge]
    dsimp only
    have hsize0 : 2 ≤ (if c.size = 0 then LEPT_PARSE_STACK_INIT_SIZE else c.size) := by
      rcases h with ⟨hs, _⟩ | ⟨hs, _⟩
      · simp [hs, LEPT_PARSE_STACK_INIT_SIZE]
      · have : c.size ≠ 0 := by omega
        simp [this, hs]
    obtain ⟨size1, hgrow, hlt, hle⟩ := grow_ok (c.top + 1 + 2) (c.top + 1) _ hsize0
      (by omega) (by omega)
    rw [hgrow]
    refine ⟨_, rfl, ?_, rfl, rfl, ?_⟩
    · right
      refine ⟨by simp only; omega, by simp only; omega, _, rfl, ?_⟩
      simp [length_realloc]
    · have hpre : (realloc c.stack size1).take c.top = used c := by
        rcases h with ⟨_, h0⟩ | ⟨hs, hle2, buf, hb, hlen⟩
        · simp [used, h0]
        · have hne : c.size ≠ 0 := by omega
          simp only [hne, if_false] at hle
          simp only [realloc, used, hb, Option.getD_some, List.take_take]
          rw [min_eq_left (by omega), List.take_append_of_le_length (by omega)]
      simp only [used, Option.map_some', Option.getD_some]
      rw [take_succ_set _ _ _ (by rw [length_realloc]; omega), hpre]
      rfl
  · rw [if_neg hge]
    rcases h with ⟨hs, _⟩ | ⟨hs, hle, buf, hb, hlen⟩
    · omega
    · refine ⟨_, rfl, ?_, rfl, rfl, ?_⟩
      · right
        refine ⟨hs, by simp only; omega, buf.set c.top ch, by simp [hb], by simp [hlen]⟩
      · simp only [used, hb, Option.map_some', Option.getD_some]
        rw [take_succ_set _ _ _ (by omega)]

/-- The loop of `lept_parse_string` over a run of bytes that holds no `"` and no
NUL: every byte is pushed, nothing else changes. -/
theorem string_loop_run (head : Nat) (s : List Nat) (hs : ∀ b ∈ s, b ≠ 34 ∧ b ≠ 0) :
    ∀ (c : lept_context) (v : lept_value) (tail : List Nat), StackOk c →
      ∃ c1, StackOk c1 ∧ c1.top = c.top + s.length ∧ c1.json = c.json ∧
        used c1 = used c ++ s ∧
        lept_parse_string.loop head (s ++ tail) c v = lept_parse_string.loop head tail c1 v := by
  induction s with
  | nil =>
    intro c v tail hc
    exact ⟨c, hc, by simp, rfl, by simp, rfl⟩
  | cons b s ih =>
    intro c v tail hc
    obtain ⟨hb34, hb0⟩ := hs b (List.mem_cons_self b s)
    obtain ⟨c1, hput, hok1, htop1, hjson1, hused1⟩ := PUTC_ok c b hc
    obtain ⟨c2, hok2, htop2, hjson2, hused2, hloop⟩ :=
      ih (fun x hx => hs x (List.mem_cons_of_mem b hx)) c1 v tail hok1
    refine ⟨c2, hok2, ?_, ?_, ?_, ?_⟩
    · rw [htop2, htop1, List.length_cons]
      omega
    · rw [hjson2, hjson1]
    · rw [hused2, hused1]
      simp
    · rw [List.cons_append]
      conv_lhs => unfold lept_parse_string.loop
      rw [if_neg hb34, if_neg hb0, hput]
      exact hloop

/-- The closing `"` in the loop of `lept_parse_string`, when `head` is the value
of `top` at entry: the bytes pushed since then become the string. -/
theorem string_loop_quote (head : Nat) (c : lept_context) (v : lept_value) (p pre s : List Nat)
    (hc : StackOk c) (hused : used c = pre ++ s) (hpre : pre.length = head) :
    lept_parse_string.loop head (34 :: p) c v =
      Except.ok (LEPT_PARSE_OK, { c with top := head, json := p },
        { lept_free v with s := some (s ++ [0]), len := s.length, type := LEPT_STRING }) := by
  have hlen := length_used c hc
  rw [hused, List.length_append, hpre] at hlen
  have hsub : c.top - head = s.length := by omega
  have hsub2 : c.top - s.length = head := by omega
  unfold lept_parse_string.loop
  rw [if_pos rfl]
  dsimp only
  unfold lept_context_pop
  rw [if_neg (by omega)]
  dsimp only
  unfold lept_set_string
  have hassert : ¬ (Option.map (fun b => List.drop (c.top - (c.top - head)) b) c.stack = none ∧
      c.top - head ≠ 0) := by
    rintro ⟨hnone, hne⟩
    rcases hc with ⟨_, h0⟩ | ⟨_, _, buf, hb, _⟩
    · omega
    · simp [hb] at hnone
  rw [if_neg hassert]
  have hcontent : ((Option.map (fun b => List.drop (c.top - (c.top - head)) b) c.stack).getD []).take
      (c.top - head) = s := by
    rw [hsub, hsub2]
    have h1 : (Option.map (fun b => List.drop head b) c.stack).getD [] =
        (c.stack.getD []).drop head := by
      cases c.stack <;> simp
    rw [h1]
    have h2 : ((c.stack.getD []).take c.top).drop head = s := by
      have := hused
      unfold used at this
      rw [this, ← hpre, List.drop_left]
    rw [List.drop_take] at h2
    rw [← hsub]
    exact h2
  rw [hcontent, hsub, hsub2]

/-! ## Text that goes on after whitespace -/

theorem dropWhile_append_stop (P : Nat → Bool) (p z : List Nat) (b : Nat) (hb : P b = false) :
    (p ++ b :: z).dropWhile P = p.dropWhile P ++ b :: z := by
  induction p with
  | nil => simp [List.dropWhile_cons, hb]
  | cons a p ih =>
    by_cases ha : P a = true
    · simp [List.dropWhile_cons, ha, ih]
    · simp [List.dropWhile_cons, ha]

theorem takeWhile_append_stop (P : Nat → Bool) (p z : List Nat) (b : Nat) (hb : P b = false) :
    (p ++ b :: z).takeWhile P = p.takeWhile P := by
  induction p with
  | nil => simp [List.takeWhile_cons, hb]
  | cons a p ih =>
    by_cases ha : P a = true
    · simp [List.takeWhile_cons, ha, ih]
    · simp [List.takeWhile_cons, ha]

/-- What the scanners test about a whitespace byte. -/
theorem ws_facts (b : Nat) (hb : iswhitespace b = true) :
    ISDIGIT b = false ∧ isxdigit b = false ∧ b ≠ 46 ∧ b ≠ 101 ∧ b ≠ 69 ∧ b ≠ 43 ∧ b ≠ 45 ∧
      b ≠ 48 ∧ b ≠ 120 ∧ b ≠ 88 ∧ b ≠ 112 ∧ b ≠ 80 ∧ b ≠ 0 := by
  have h : b = 32 ∨ b = 9 ∨ b = 10 ∨ b = 13 := by
    simpa [iswhitespace, or_assoc] using hb
  rcases h with rfl | rfl | rfl | rfl <;> decide

theorem exp_append_ws (p z : List Nat) (b : Nat) (hb : iswhitespace b = true) :
    lept_parse_number.exp (p ++ b :: z) = (lept_parse_number.exp p).map (fun r => r ++ b :: z) := by
  obtain ⟨hd, _, _, h101, h69, h43, h45, _⟩ := ws_facts b hb
  have hpass : ∀ q : List Nat, PASS_DIGITS (q ++ b :: z) = PASS_DIGITS q ++ b :: z :=
    fun q => dropWhile_append_stop ISDIGIT q z b hd
  have hd0 : ISDIGIT 0 = false := by decide
  rcases p with _ | ⟨a1, _ | ⟨a2, _ | ⟨a3, p⟩⟩⟩
  · simp [lept_parse_number.exp, h101, h69]
  · by_cases hm : a1 = 101 ∨ a1 = 69
    · simp [lept_parse_number.exp, hm, h43, h45, hd, hd0]
    · simp [lept_parse_number.exp, hm]
  · by_cases hm : a1 = 101 ∨ a1 = 69
    · by_cases hs : a2 = 43 ∨ a2 = 45
      · simp [lept_parse_number.exp, hm, hs, hd, hd0]
      · by_cases hd2 : ISDIGIT a2 = true
        · simp [lept_parse_number.exp, hm, hs, hd2, PASS_DIGITS, List.dropWhile_cons, hd]
        · simp [lept_parse_number.exp, hm, hs, hd2]
    · simp [lept_parse_number.exp, hm]
  · by_cases hm : a1 = 101 ∨ a1 = 69
    · by_cases hs : a2 = 43 ∨ a2 = 45
      · by_cases hd3 : ISDIGIT a3 = true
        · simp [lept_parse_number.exp, hm, hs, hd3, hpass]
        · simp [lept_parse_number.exp, hm, hs, hd3]
      · by_cases hd2 : ISDIGIT a2 = true
        · have := hpass (a3 :: p)
          simp only [List.cons_append] at this
          simp [lept_parse_number.exp, hm, hs, hd2, this]
        · simp [lept_parse_number.exp, hm, hs, hd2]
    · simp [lept_parse_number.exp, hm]

theorem frac_append_ws (p z : List Nat) (b : Nat) (hb : iswhitespace b = true) :
    lept_parse_number.frac (p ++ b :: z) =
      (lept_parse_number.frac p).map (fun r => r ++ b :: z) := by
  obtain ⟨hd, _, h46, _⟩ := ws_facts b hb
  have hpass : ∀ q : List Nat, PASS_DIGITS (q ++ b :: z) = PASS_DIGITS q ++ b :: z :=
    fun q => dropWhile_append_stop ISDIGIT q z b hd
  have hd0 : ISDIGIT 0 = false := by decide
  have hexp := exp_append_ws
  rcases p with _ | ⟨a1, _ | ⟨a2, p⟩⟩
  · have := hexp [] z b hb
    simp only [List.nil_append] at this
    simp [lept_parse_number.frac, h46, this]
  · by_cases hdot : a1 = 46
    · simp [lept_parse_number.frac, hdot, hd, hd0]
    · have := hexp [a1] z b hb
      simp only [List.cons_append, List.nil_append] at this
      simp [lept_parse_number.frac, hdot, this]
  · by_cases hdot : a1 = 46
    · by_cases hd2 : ISDIGIT a2 = true
      · simp [lept_parse_number.frac, hdot, hd2, hpass, hexp _ z b hb]
      · simp [lept_parse_number.frac, hdot, hd2]
    · have := hexp (a1 :: a2 :: p) z b hb
      simp only [List.cons_append] at this
      simp [lept_parse_number.frac, hdot, this]

/-- The validation of `lept_parse_number` reads a whitespace byte like the end
of the text: appending text that starts with whitespace changes nothing but
the rest that is left. -/
theorem validate_append_ws (p z : List Nat) (b : Nat) (hb : iswhitespace b = true) :
    lept_parse_number.validate (p ++ b :: z) =
      (lept_parse_number.validate p).map (fun r => r ++ b :: z) := by
  obtain ⟨hd, _, _, _, _, _, h45, h48, _⟩ := ws_facts b hb
  have hpass : ∀ q : List Nat, PASS_DIGITS (q ++ b :: z) = PASS_DIGITS q ++ b :: z :=
    fun q => dropWhile_append_stop ISDIGIT q z b hd
  have hd0 : ISDIGIT 0 = false := by decide
  have hfrac := fun q => frac_append_ws q z b hb
  have h19 : ISDIGIT1TO9 b = false := by
    have h : b = 32 ∨ b = 9 ∨ b = 10 ∨ b = 13 := by
      simpa [iswhitespace, or_assoc] using hb
    rcases h with rfl | rfl | rfl | rfl <;> decide
  have key : ∀ q : List Nat,
      (if ISDIGIT1TO9 (peek (q ++ b :: z)) = true then
          lept_parse_number.frac (PASS_DIGITS (q ++ b :: z).tail)
        else if peek (q ++ b :: z) = 48 then lept_parse_number.frac (q ++ b :: z).tail
        else none) =
      (if ISDIGIT1TO9 (peek q) = true then lept_parse_number.frac (PASS_DIGITS q.tail)
        else if peek q = 48 then lept_parse_number.frac q.tail else none).map
        (fun r => r ++ b :: z) := by
    intro q
    rcases q with _ | ⟨a1, q⟩
    · have h190 : ISDIGIT1TO9 0 = false := by decide
      simp [h19, h48, h190]
    · by_cases ha : ISDIGIT1TO9 a1 = true
      · simp [ha, hpass, hfrac]
      · by_cases ha0 : a1 = 48
        · have h1948 : ISDIGIT1TO9 48 = false := by decide
          simp [ha0, h1948, hfrac]
        · simp [ha, ha0]
  unfold lept_parse_number.validate
  dsimp only
  rcases p with _ | ⟨a1, p⟩
  · have := key []
    simp only [List.nil_append] at this
    simp only [List.nil_append, peek_cons, h45, if_false, peek_nil] at this ⊢
    rw [this]
    simp
  · by_cases hm : a1 = 45
    · have := key p
      simp only [List.cons_append, peek_cons, hm, if_true, List.tail_cons]
      exact this
    · have := key (a1 :: p)
      simp only [List.cons_append, peek_cons, hm, if_false]
      simpa using this

theorem strtodExp_append_ws (m1 m2 : Nat) (p z : List Nat) (b : Nat)
    (hb : iswhitespace b = true) (h1 : b ≠ m1) (h2 : b ≠ m2) (hm1 : m1 ≠ 0) (hm2 : m2 ≠ 0) :
    strtodExp m1 m2 (p ++ b :: z) = strtodExp m1 m2 p := by
  obtain ⟨hd, _, _, _, _, h43, h45, _⟩ := ws_facts b hb
  have htake : ∀ q : List Nat, (q ++ b :: z).takeWhile ISDIGIT = q.takeWhile ISDIGIT :=
    fun q => takeWhile_append_stop ISDIGIT q z b hd
  rcases p with _ | ⟨a1, _ | ⟨a2, p⟩⟩
  · simp [strtodExp, h1, h2, hm1.symm, hm2.symm]
  · by_cases hm : a1 = m1 ∨ a1 = m2
    · simp [strtodExp, hm, h43, h45, List.takeWhile_cons, hd]
    · simp [strtodExp, hm]
  · by_cases hm : a1 = m1 ∨ a1 = m2
    · by_cases hs : a2 = 43 ∨ a2 = 45
      · simp [strtodExp, hm, hs, htake]
      · have := htake (a2 :: p)
        simp only [List.cons_append] at this
        simp [strtodExp, hm, hs, this]
    · simp [strtodExp, hm]

theorem strtodDec_append_ws (p z : List Nat) (b : Nat) (hb : iswhitespace b = true) :
    strtodDec (p ++ b :: z) = strtodDec p := by
  obtain ⟨hd, _, h46, h101, h69, _⟩ := ws_facts b hb
  have hexp := fun q => strtodExp_append_ws 101 69 q z b hb h101 h69 (by decide) (by decide)
  have htake : ∀ q : List Nat, (q ++ b :: z).takeWhile ISDIGIT = q.takeWhile ISDIGIT :=
    fun q => takeWhile_append_stop ISDIGIT q z b hd
  have hdrop : ∀ q : List Nat, (q ++ b :: z).dropWhile ISDIGIT = q.dropWhile ISDIGIT ++ b :: z :=
    fun q => dropWhile_append_stop ISDIGIT q z b hd
  unfold strtodDec
  dsimp only
  rw [htake, hdrop]
  rcases hr : p.dropWhile ISDIGIT with _ | ⟨a1, r⟩
  · have := hexp []
    simp only [List.nil_append] at this
    simp [h46, this]
  · by_cases hdot : a1 = 46
    · simp [hdot, htake, hdrop, hexp]
    · have := hexp (a1 :: r)
      simp only [List.cons_append] at this
      simp [hdot, this]

theorem strtodHex_append_ws (p z : List Nat) (b : Nat) (hb : iswhitespace b = true) :
    strtodHex (p ++ b :: z) = strtodHex p := by
  obtain ⟨_, hx, h46, _, _, _, _, _, _, _, h112, h80, _⟩ := ws_facts b hb
  have hexp := fun q => strtodExp_append_ws 112 80 q z b hb h112 h80 (by decide) (by decide)
  have htake : ∀ q : List Nat, (q ++ b :: z).takeWhile isxdigit = q.takeWhile isxdigit :=
    fun q => takeWhile_append_stop isxdigit q z b hx
  have hdrop : ∀ q : List Nat, (q ++ b :: z).dropWhile isxdigit = q.dropWhile isxdigit ++ b :: z :=
    fun q => dropWhile_append_stop isxdigit q z b hx
  unfold strtodHex
  dsimp only
  rw [htake, hdrop]
  rcases hr : p.dropWhile isxdigit with _ | ⟨a1, r⟩
  · have := hexp []
    simp only [List.nil_append] at this
    simp [h46, this]
  · by_cases hdot : a1 = 46
    · simp [hdot, htake, hdrop, hexp]
    · have := hexp (a1 :: r)
      simp only [List.cons_append] at this
      simp [hdot, this]

theorem strtodMagnitude_append_ws (p z : List Nat) (b : Nat) (hb : iswhitespace b = true) :
    strtodMagnitude (p ++ b :: z) = strtodMagnitude p := by
  obtain ⟨_, _, _, _, _, _, _, h48, h120, h88, _⟩ := ws_facts b hb
  have hdec := fun q => strtodDec_append_ws q z b hb
  have hhex := fun q => strtodHex_append_ws q z b hb
  rcases p with _ | ⟨a1, _ | ⟨a2, p⟩⟩
  · have := hdec []
    simp only [List.nil_append] at this
    simp [strtodMagnitude, h48, this]
  · have := hdec [a1]
    simp only [List.cons_append, List.nil_append] at this
    simp [strtodMagnitude, h120, h88, this]
  · have := hdec (a1 :: a2 :: p)
    simp only [List.cons_append] at this
    simp [strtodMagnitude, hhex, this]

/-- The conversion `strtod` stops at whitespace: on a text that starts with `-`
or a digit, appending text that starts with whitespace does not change what it
reads. -/
theorem strtodExact_append_ws (p z : List Nat) (b : Nat) (hb : iswhitespace b = true)
    (hp : peek p = 45 ∨ Digit (peek p)) :
    strtodExact (p ++ b :: z) = strtodExact p := by
  have hmag := fun q => strtodMagnitude_append_ws q z b hb
  rcases p with _ | ⟨a1, p⟩
  · unfold Digit at hp
    simp at hp
  · simp only [peek_cons] at hp
    have hsp : isspace a1 = false := by
      unfold Digit at hp
      simp only [isspace, Bool.or_eq_false_iff, beq_eq_false_iff_ne]
      omega
    by_cases hs : a1 = 43 ∨ a1 = 45
    · simp [strtodExact, List.dropWhile_cons, hsp, hs, hmag]
    · have := hmag (a1 :: p)
      simp only [List.cons_append] at this
      simp [strtodExact, List.dropWhile_cons, hsp, hs, this]

/-! ## The dispatch of `lept_parse_value` and text appended after a value -/

/-- The literal scanner on a text that starts with `n`: what it returns when
the next three bytes are `ull`, and when they are not. -/
theorem lept_parse_value_n (errno : Nat) (st : Option (List Nat)) (sz tp : Nat) (v : lept_value)
    (rest : List Nat) :
    lept_parse_value errno ⟨110 :: rest, st, sz, tp⟩ v =
      if rest.take 3 = [117, 108, 108] then
        Except.ok (LEPT_PARSE_OK, ⟨rest.drop 3, st, sz, tp⟩, { v with type := LEPT_NULL })
      else Except.ok (LEPT_PARSE_INVALID_VALUE, ⟨rest, st, sz, tp⟩, v) := by
  rcases rest with _ | ⟨a, _ | ⟨b, _ | ⟨c, r⟩⟩⟩ <;>
    simp [lept_parse_value, lept_parse_literal, bytes_null, lept_parse_literal.loop,
      eq_comm (a := (117 : Nat)), eq_comm (a := (108 : Nat))]
  by_cases ha : a = 117 <;> by_cases hb : b = 108 <;> by_cases hc : c = 108 <;>
    simp [ha, hb, hc]

/-- The literal scanner on a text that starts with `t`. -/
theorem lept_parse_value_t (errno : Nat) (st : Option (List Nat)) (sz tp : Nat) (v : lept_value)
    (rest : List Nat) :
    lept_parse_value errno ⟨116 :: rest, st, sz, tp⟩ v =
      if rest.take 3 = [114, 117, 101] then
        Except.ok (LEPT_PARSE_OK, ⟨rest.drop 3, st, sz, tp⟩, { v with type := LEPT_TRUE })
      else Except.ok (LEPT_PARSE_INVALID_VALUE, ⟨rest, st, sz, tp⟩, v) := by
  rcases rest with _ | ⟨a, _ | ⟨b, _ | ⟨c, r⟩⟩⟩ <;>
    simp [lept_parse_value, lept_parse_literal, bytes_true, lept_parse_literal.loop,
      eq_comm (a := (114 : Nat)), eq_comm (a := (117 : Nat)), eq_comm (a := (101 : Nat))]
  by_cases ha : a = 114 <;> by_cases hb : b = 117 <;> by_cases hc : c = 101 <;>
    simp [ha, hb, hc]

/-- The literal scanner on a text that starts with `f`. -/
theorem lept_parse_value_f (errno : Nat) (st : Option (List Nat)) (sz tp : Nat) (v : lept_value)
    (rest : List Nat) :
    lept_parse_value errno ⟨102 :: rest, st, sz, tp⟩ v =
      if rest.take 4 = [97, 108, 115, 101] then
        Except.ok (LEPT_PARSE_OK, ⟨rest.drop 4, st, sz, tp⟩, { v with type := LEPT_FALSE })
      else Except.ok (LEPT_PARSE_INVALID_VALUE, ⟨rest, st, sz, tp⟩, v) := by
  rcases rest with _ | ⟨a, _ | ⟨b, _ | ⟨c, _ | ⟨d, r⟩⟩⟩⟩ <;>
    simp [lept_parse_value, lept_parse_literal, bytes_false, lept_parse_literal.loop,
      eq_comm (a := (97 : Nat)), eq_comm (a := (108 : Nat)), eq_comm (a := (115 : Nat)),
      eq_comm (a := (101 : Nat))]
  by_cases ha : a = 97 <;> by_cases hb : b = 108 <;> by_cases hc : c = 115 <;>
    by_cases hd : d = 101 <;>
    simp [ha, hb, hc, hd]

theorem validate_some_start (y p : List Nat) (h : lept_parse_number.validate y = some p) :
    peek y = 45 ∨ Digit (peek y) := by
  obtain ⟨span, hy, sg, i, f, e, rfl, hsg, hI, _, _⟩ := validate_sound y p h
  have := number_start sg i ((f ++ e) ++ p) hsg hI
  rw [hy]
  simpa [List.append_assoc] using this

theorem lept_parse_value_string (errno : Nat) (c : lept_context) (v : lept_value) (p : List Nat)
    (hc : c.json = 34 :: p) :
    lept_parse_value errno c v =
      lept_parse_string.loop c.top p { c with json := p } v := by
  simp [lept_parse_value, lept_parse_string, hc]

theorem PUTC_json (c : lept_context) (ch : Nat) (j : List Nat) :
    PUTC { c with json := j } ch = (PUTC c ch).map (fun c1 => { c1 with json := j }) := by
  unfold PUTC lept_context_push
  simp only [Nat.one_ne_zero, if_false]
  by_cases hge : c.top + 1 ≥ c.size
  · simp only [hge, if_true]
    cases lept_context_push.grow (c.top + 1 + 2) (c.top + 1)
      (if c.size = 0 then LEPT_PARSE_STACK_INIT_SIZE else c.size) <;> rfl
  · simp only [hge, if_false]
    rfl

/-- A successful string scan reads nothing after the closing `"`: with more text
appended it returns the same value and leaves that text after the cursor.  The
cursor stored in the context on entry plays no part. -/
theorem string_loop_extend (head : Nat) (p : List Nat) :
    ∀ (c c2 : lept_context) (v v2 : lept_value),
      lept_parse_string.loop head p c v = Except.ok (LEPT_PARSE_OK, c2, v2) →
      (∃ pre, p = pre ++ c2.json) ∧
        ∀ z j, lept_parse_string.loop head (p ++ z) { c with json := j } v =
          Except.ok (LEPT_PARSE_OK, { c2 with json := c2.json ++ z }, v2) := by
  induction p with
  | nil =>
    intro c c2 v v2 h
    simp [lept_parse_string.loop] at h
  | cons ch p ih =>
    intro c c2 v v2 h
    unfold lept_parse_string.loop at h
    by_cases h34 : ch = 34
    · rw [if_pos h34] at h
      dsimp only at h
      unfold lept_context_pop at h
      by_cases htop : c.top < c.top - head
      · rw [if_pos htop] at h
        simp at h
      · rw [if_neg htop] at h
        dsimp only at h
        cases hset : lept_set_string v
            (Option.map (fun b => List.drop (c.top - (c.top - head)) b) c.stack)
            (c.top - head) with
        | error e =>
          rw [hset] at h
          simp at h
        | ok v1 =>
          rw [hset] at h
          simp only [Except.ok.injEq, Prod.mk.injEq, true_and] at h
          obtain ⟨hc2, hv2⟩ := h
          subst hc2 hv2
          refine ⟨⟨[ch], rfl⟩, ?_⟩
          intro z j
          rw [List.cons_append]
          unfold lept_parse_string.loop
          rw [if_pos h34]
          dsimp only
          unfold lept_context_pop
          dsimp only
          rw [if_neg htop]
          dsimp only
          rw [hset]
    · rw [if_neg h34] at h
      by_cases h0 : ch = 0
      · rw [if_pos h0] at h
        simp at h
      · rw [if_neg h0] at h
        cases hput : PUTC c ch with
        | error e =>
          rw [hput] at h
          simp at h
        | ok c1 =>
          rw [hput] at h
          dsimp only at h
          obtain ⟨⟨pre, hpre⟩, hz⟩ := ih c1 c2 v v2 h
          refine ⟨⟨ch :: pre, by rw [hpre]; rfl⟩, ?_⟩
          intro z j
          rw [List.cons_append]
          conv_lhs => unfold lept_parse_string.loop
          rw [if_neg h34, if_neg h0, PUTC_json, hput]
          exact hz z j

/-- A successful `lept_parse_value` leaves a rest of its text after the cursor,
and with text appended that starts with a whitespace byte it returns the same
value and leaves the appended text after that rest. -/
theorem lept_parse_value_extend (errno : Nat) (c c2 : lept_context) (v v2 : lept_value)
    (b : Nat) (z : List Nat) (hb : iswhitespace b = true)
    (h : lept_parse_value errno c v = Except.ok (LEPT_PARSE_OK, c2, v2)) :
    (∃ pre, c.json = pre ++ c2.json) ∧
      lept_parse_value errno { c with json := c.json ++ b :: z } v =
        Except.ok (LEPT_PARSE_OK, { c2 with json := c2.json ++ b :: z }, v2) := by
  obtain ⟨json, st, sz, tp⟩ := c
  dsimp only
  rcases json with _ | ⟨a, rest⟩
  · simp [lept_parse_value] at h
  · by_cases hn : a = 110
    · subst hn
      rw [lept_parse_value_n] at h
      by_cases ht : rest.take 3 = [117, 108, 108]
      · rw [if_pos ht] at h
        simp only [Except.ok.injEq, Prod.mk.injEq, true_and] at h
        obtain ⟨hc2, hv2⟩ := h
        subst hc2 hv2
        have hlen : 3 ≤ rest.length := by
          have := congrArg List.length ht
          simp only [List.length_take, List.length_cons, List.length_nil] at this
          omega
        refine ⟨⟨110 :: rest.take 3, by simp⟩, ?_⟩
        rw [List.cons_append, lept_parse_value_n, List.take_append_of_le_length hlen, if_pos ht,
          List.drop_append_of_le_length hlen]
      · rw [if_neg ht] at h
        simp at h
    · by_cases ht116 : a = 116
      · subst ht116
        rw [lept_parse_value_t] at h
        by_cases ht : rest.take 3 = [114, 117, 101]
        · rw [if_pos ht] at h
          simp only [Except.ok.injEq, Prod.mk.injEq, true_and] at h
          obtain ⟨hc2, hv2⟩ := h
          subst hc2 hv2
          have hlen : 3 ≤ rest.length := by
            have := congrArg List.length ht
            simp only [List.length_take, List.length_cons, List.length_nil] at this
            omega
          refine ⟨⟨116 :: rest.take 3, by simp⟩, ?_⟩
          rw [List.cons_append, lept_parse_value_t, List.take_append_of_le_length hlen, if_pos ht,
            List.drop_append_of_le_length hlen]
        · rw [if_neg ht] at h
          simp at h
      · by_cases hf : a = 102
        · subst hf
          rw [lept_parse_value_f] at h
          by_cases ht : rest.take 4 = [97, 108, 115, 101]
          · rw [if_pos ht] at h
            simp only [Except.ok.injEq, Prod.mk.injEq, true_and] at h
            obtain ⟨hc2, hv2⟩ := h
            subst hc2 hv2
            have hlen : 4 ≤ rest.length := by
              have := congrArg List.length ht
              simp only [List.length_take, List.length_cons, List.length_nil] at this
              omega
            refine ⟨⟨102 :: rest.take 4, by simp⟩, ?_⟩
            rw [List.cons_append, lept_parse_value_f, List.take_append_of_le_length hlen,
              if_pos ht, List.drop_append_of_le_length hlen]
          · rw [if_neg ht] at h
            simp at h
        · by_cases hq : a = 34
          · subst hq
            rw [lept_parse_value_string errno _ _ rest rfl] at h
            obtain ⟨⟨pre, hpre⟩, hz⟩ := string_loop_extend tp rest _ _ _ _ h
            refine ⟨⟨34 :: pre, by rw [hpre]; rfl⟩, ?_⟩
            rw [lept_parse_value_string errno _ _ (rest ++ b :: z) rfl]
            exact hz (b :: z) (rest ++ b :: z)
          · have h0 : a ≠ 0 := by
              intro h0
              subst h0
              simp [lept_parse_value] at h
            have hdisp : ∀ q : List Nat,
                lept_parse_value errno ⟨a :: q, st, sz, tp⟩ v =
                  Except.ok (lept_parse_number errno ⟨a :: q, st, sz, tp⟩ v) := by
              intro q
              simp [lept_parse_value, hn, ht116, hf, hq, h0]
            rw [hdisp rest] at h
            simp only [Except.ok.injEq] at h
            cases hv : lept_parse_number.validate (a :: rest) with
            | none =>
              unfold lept_parse_number at h
              rw [show (⟨a :: rest, st, sz, tp⟩ : lept_context).json = a :: rest from rfl, hv] at h
              simp at h
            | some p =>
              have hstart := validate_some_start _ _ hv
              have hnum := lept_parse_number_valid errno ⟨a :: rest, st, sz, tp⟩ v p hv
              rw [h] at hnum
              by_cases ho : (strtodExact (a :: rest)).overflows = true
              · rw [if_pos ho] at hnum
                simp at hnum
              · rw [if_neg ho] at hnum
                simp only [Prod.mk.injEq, true_and] at hnum
                obtain ⟨hc2, hv2⟩ := hnum
                subst hc2 hv2
                obtain ⟨span, hspan, _⟩ := validate_sound _ _ hv
                refine ⟨⟨span, hspan⟩, ?_⟩
                have hv2 : lept_parse_number.validate ((a :: rest) ++ b :: z) =
                    some (p ++ b :: z) := by
                  rw [validate_append_ws _ z b hb, hv]
                  rfl
                have hs2 : strtodExact ((a :: rest) ++ b :: z) = strtodExact (a :: rest) :=
                  strtodExact_append_ws _ z b hb hstart
                rw [List.cons_append, hdisp (rest ++ b :: z)]
                have hnum2 := lept_parse_number_valid errno ⟨(a :: rest) ++ b :: z, st, sz, tp⟩ v
                  (p ++ b :: z) hv2
                rw [show (⟨(a :: rest) ++ b :: z, st, sz, tp⟩ : lept_context).json =
                  (a :: rest) ++ b :: z from rfl, hs2, if_neg ho] at hnum2
                rw [← List.cons_append, hnum2]

/-! ## Whole texts through `lept_parse` -/

/-- What `lept_parse` and `lept_parse_number` do with a text that starts like a
number and that the validation rejects. -/
theorem invalid_number (errno : Nat) (v : lept_value) (s : List Nat)
    (hstart : peek s = 45 ∨ Digit (peek s)) (hnone : lept_parse_number.validate s = none) :
    lept_parse errno v s = Except.ok (LEPT_PARSE_INVALID_VALUE, { v with type := LEPT_NULL }) ∧
      ∀ (c : lept_context) (v1 : lept_value), c.json = s →
        lept_parse_number errno c v1 = (LEPT_PARSE_INVALID_VALUE, c, v1) := by
  have hnum : ∀ (c : lept_context) (v1 : lept_value), c.json = s →
      lept_parse_number errno c v1 = (LEPT_PARSE_INVALID_VALUE, c, v1) := by
    intro c v1 hc
    unfold lept_parse_number
    rw [hc, hnone]
  refine ⟨?_, hnum⟩
  have hval : lept_parse_value errno ⟨s.dropWhile iswhitespace, none, 0, 0⟩ (lept_init v) =
      Except.ok (LEPT_PARSE_INVALID_VALUE, ⟨s.dropWhile iswhitespace, none, 0, 0⟩, lept_init v) := by
    rw [dropWhile_ws_number s hstart, lept_parse_value_number errno _ _ hstart,
      hnum ⟨s, none, 0, 0⟩ (lept_init v) rfl]
  rw [lept_parse_of_value errno v _ _ _ _ hval rfl]
  simp [lept_init]

theorem dropWhile_ws_free (p : List Nat) (h : ∀ b ∈ p, iswhitespace b = false) :
    p.dropWhile iswhitespace = p := by
  cases p with
  | nil => rfl
  | cons b l => exact dropWhile_ws_cons b l (h b (List.mem_cons_self b l))

theorem nil_of_peek_zero (p : List Nat) (hws : ∀ b ∈ p, iswhitespace b = false)
    (hnul : ∀ b ∈ p, b ≠ 0) (h : peek (p.dropWhile iswhitespace) = 0) : p = [] := by
  rw [dropWhile_ws_free p hws] at h
  cases p with
  | nil => rfl
  | cons b l => exact absurd h (hnul b (List.mem_cons_self b l))

/-- The function `lept_parse` on a text that matches the number grammar as a whole. -/
theorem lept_parse_number_text (errno : Nat) (v : lept_value) (s : List Nat)
    (h : NumberGrammar s) :
    lept_parse errno v s =
      Except.ok
        (if (strtodExact s).overflows = true then
          (LEPT_PARSE_NUMBER_TOO_BIG,
            { v with n := Double.inf (strtodExact s).neg, type := LEPT_NULL })
        else (LEPT_PARSE_OK, { v with n := Double.finite (strtodExact s), type := LEPT_NUMBER })) := by
  have hstart := NumberGrammar_start s h
  have hnum := lept_parse_number_valid errno ⟨s, none, 0, 0⟩ (lept_init v) [] (validate_complete s h)
  have hval : lept_parse_value errno ⟨s.dropWhile iswhitespace, none, 0, 0⟩ (lept_init v) =
      Except.ok (lept_parse_number errno ⟨s, none, 0, 0⟩ (lept_init v)) := by
    rw [dropWhile_ws_number s hstart, lept_parse_value_number errno _ _ hstart]
  by_cases ho : (strtodExact s).overflows = true
  · simp only [ho, if_true] at hnum ⊢
    rw [hnum] at hval
    rw [lept_parse_of_value errno v _ _ _ _ hval rfl]
    simp [lept_init]
  · simp only [ho, if_false] at hnum ⊢
    rw [hnum] at hval
    rw [lept_parse_of_value errno v _ _ _ _ hval rfl]
    simp [lept_init]

/-- The string scanner on a text `"s"...` where `s` holds no `"` and no NUL. -/
theorem lept_parse_string_closed (c : lept_context) (v : lept_value) (s rest : List Nat)
    (hs : ∀ b ∈ s, b ≠ 34 ∧ b ≠ 0) (hc : StackOk c) :
    ∃ c1, lept_parse_string.loop c.top (s ++ 34 :: rest) c v =
        Except.ok (LEPT_PARSE_OK, c1,
          { lept_free v with s := some (s ++ [0]), len := s.length, type := LEPT_STRING }) ∧
      c1.top = c.top ∧ c1.json = rest := by
  obtain ⟨c1, hok, _, _, hused, hloop⟩ := string_loop_run c.top s hs c v (34 :: rest) hc
  rw [hloop, string_loop_quote c.top c1 v rest (used c) s hok hused (length_used c hc)]
  exact ⟨_, rfl, rfl, rfl⟩

/-- The string scanner on a text `"s` that ends before a closing `"`. -/
theorem lept_parse_string_open (c : lept_context) (v : lept_value) (s : List Nat)
    (hs : ∀ b ∈ s, b ≠ 34 ∧ b ≠ 0) (hc : StackOk c) :
    ∃ c1, lept_parse_string.loop c.top s c v =
        Except.ok (LEPT_PARSE_MISS_QUOTATION_MARK, c1, v) ∧ c1.top = c.top := by
  obtain ⟨c1, _, _, _, _, hloop⟩ := string_loop_run c.top s hs c v [] hc
  rw [List.append_nil] at hloop
  rw [hloop]
  exact ⟨_, rfl, rfl⟩

theorem dropWhile_append_of_ne_nil (P : Nat → Bool) (a c : List Nat)
    (h : a.dropWhile P ≠ []) : (a ++ c).dropWhile P = a.dropWhile P ++ c := by
  induction a with
  | nil => simp at h
  | cons x a ih =>
    by_cases hx : P x = true
    · simp only [List.dropWhile_cons, hx, if_true] at h
      simp [List.dropWhile_cons, hx, ih h]
    · simp [List.dropWhile_cons, hx]

/-- When the whitespace skip of a text without NUL stops at the terminator, the
whole text is whitespace. -/
theorem all_ws_of_peek_zero (p : List Nat) (hnul : ∀ b ∈ p, b ≠ 0)
    (h : peek (p.dropWhile iswhitespace) = 0) : ∀ b ∈ p, iswhitespace b = true := by
  have hall := (peek_dropWhile_ws p).1 h
  have htw : p.takeWhile (fun x => x != 0) = p := by
    rw [List.takeWhile_eq_self_iff]
    intro x hx
    simpa using hnul x hx
  rw [htw] at hall
  exact hall

theorem lept_parse_number_errno (e1 e2 : Nat) (c : lept_context) (v : lept_value) :
    lept_parse_number e1 c v = lept_parse_number e2 c v := by
  cases hv : lept_parse_number.validate c.json with
  | none => simp [lept_parse_number, hv]
  | some p => rw [lept_parse_number_valid e1 c v p hv, lept_parse_number_valid e2 c v p hv]

theorem lept_parse_value_errno (e1 e2 : Nat) (c : lept_context) (v : lept_value) :
    lept_parse_value e1 c v = lept_parse_value e2 c v := by
  unfold lept_parse_value
  rw [lept_parse_number_errno e1 e2]

/-! ## Every parse returns -/

/-- A text splits at its first `"` or NUL byte, if it has one. -/
theorem string_split (p : List Nat) :
    ∃ s, (∀ x ∈ s, x ≠ 34 ∧ x ≠ 0) ∧
      (p = s ∨ (∃ r, p = s ++ 34 :: r) ∨ (∃ r, p = s ++ 0 :: r)) := by
  induction p with
  | nil => exact ⟨[], by simp, Or.inl rfl⟩
  | cons a p ih =>
    by_cases h34 : a = 34
    · exact ⟨[], by simp, Or.inr (Or.inl ⟨p, by simp [h34]⟩)⟩
    · by_cases h0 : a = 0
      · exact ⟨[], by simp, Or.inr (Or.inr ⟨p, by simp [h0]⟩)⟩
      · obtain ⟨s, hs, hp⟩ := ih
        refine ⟨a :: s, ?_, ?_⟩
        · intro x hx
          rcases List.mem_cons.1 hx with rfl | hx
          · exact ⟨h34, h0⟩
          · exact hs x hx
        · rcases hp with rfl | ⟨r, rfl⟩ | ⟨r, rfl⟩
          · exact Or.inl rfl
          · exact Or.inr (Or.inl ⟨r, rfl⟩)
          · exact Or.inr (Or.inr ⟨r, rfl⟩)

/-- The string scanner on a text `"s` that is cut by a NUL byte. -/
theorem lept_parse_string_nul (c : lept_context) (v : lept_value) (s rest : List Nat)
    (hs : ∀ b ∈ s, b ≠ 34 ∧ b ≠ 0) (hc : StackOk c) :
    ∃ c1, lept_parse_string.loop c.top (s ++ 0 :: rest) c v =
        Except.ok (LEPT_PARSE_MISS_QUOTATION_MARK, c1, v) ∧ c1.top = c.top := by
  obtain ⟨c1, _, _, _, _, hloop⟩ := string_loop_run c.top s hs c v (0 :: rest) hc
  rw [hloop]
  unfold lept_parse_string.loop
  rw [if_neg (by decide), if_pos rfl]
  exact ⟨_, rfl, rfl⟩

/-- From a well-formed scratch stack the string scanner returns on every text,
with `top` back at its entry value; the value is untouched unless the status is
`LEPT_PARSE_OK`. -/
theorem lept_parse_string_returns (c : lept_context) (v : lept_value) (p : List Nat)
    (hc : StackOk c) :
    ∃ ret c1 v1, lept_parse_string.loop c.top p c v = Except.ok (ret, c1, v1) ∧
      c1.top = c.top ∧
      ((ret = LEPT_PARSE_MISS_QUOTATION_MARK ∧ v1 = v) ∨
        (ret = LEPT_PARSE_OK ∧ v1.type = LEPT_STRING)) := by
  obtain ⟨s, hs, hp⟩ := string_split p
  rcases hp with hp | ⟨r, hp⟩ | ⟨r, hp⟩
  · obtain ⟨c1, h, ht⟩ := lept_parse_string_open c v s hs hc
    rw [hp]
    exact ⟨_, c1, v, h, ht, Or.inl ⟨rfl, rfl⟩⟩
  · obtain ⟨c1, h, ht, _⟩ := lept_parse_string_closed c v s r hs hc
    rw [hp]
    exact ⟨_, c1, _, h, ht, Or.inr ⟨rfl, rfl⟩⟩
  · obtain ⟨c1, h, ht⟩ := lept_parse_string_nul c v s r hs hc
    rw [hp]
    exact ⟨_, c1, v, h, ht, Or.inl ⟨rfl, rfl⟩⟩

/-- From a well-formed scratch stack `lept_parse_value` returns on every text:
no assertion fails and no loop runs on.  `top` is what it was, and a status
other than `LEPT_PARSE_OK` leaves the value untouched or with tag `LEPT_NULL`. -/
theorem lept_parse_value_returns (errno : Nat) (c : lept_context) (v : lept_value)
    (hc : StackOk c) :
    ∃ ret c2 v2, lept_parse_value errno c v = Except.ok (ret, c2, v2) ∧ c2.top = c.top ∧
      (ret ≠ LEPT_PARSE_OK → v2 = v ∨ v2.type = LEPT_NULL) := by
  obtain ⟨json, st, sz, tp⟩ := c
  rcases json with _ | ⟨a, rest⟩
  · exact ⟨LEPT_PARSE_EXPECT_VALUE, _, v, by simp [lept_parse_value], rfl, fun _ => Or.inl rfl⟩
  · by_cases hn : a = 110
    · subst hn
      rw [lept_parse_value_n]
      by_cases ht : rest.take 3 = [117, 108, 108]
      · rw [if_pos ht]
        exact ⟨_, _, _, rfl, rfl, fun h => absurd rfl h⟩
      · rw [if_neg ht]
        exact ⟨_, _, _, rfl, rfl, fun _ => Or.inl rfl⟩
    · by_cases ht116 : a = 116
      · subst ht116
        rw [lept_parse_value_t]
        by_cases ht : rest.take 3 = [114, 117, 101]
        · rw [if_pos ht]
          exact ⟨_, _, _, rfl, rfl, fun h => absurd rfl h⟩
        · rw [if_neg ht]
          exact ⟨_, _, _, rfl, rfl, fun _ => Or.inl rfl⟩
      · by_cases hf : a = 102
        · subst hf
          rw [lept_parse_value_f]
          by_cases ht : rest.take 4 = [97, 108, 115, 101]
          · rw [if_pos ht]
            exact ⟨_, _, _, rfl, rfl, fun h => absurd rfl h⟩
          · rw [if_neg ht]
            exact ⟨_, _, _, rfl, rfl, fun _ => Or.inl rfl⟩
        · by_cases hq : a = 34
          · subst hq
            rw [lept_parse_value_string errno _ _ rest rfl]
            have hc1 : StackOk ⟨rest, st, sz, tp⟩ := hc
            obtain ⟨ret, c1, v1, h, ht, hr⟩ := lept_parse_string_returns ⟨rest, st, sz, tp⟩ v rest hc1
            refine ⟨ret, c1, v1, h, ht, ?_⟩
            intro hne
            rcases hr with ⟨_, hv⟩ | ⟨hok, _⟩
            · exact Or.inl hv
            · exact absurd hok hne
          · by_cases h0 : a = 0
            · subst h0
              exact ⟨LEPT_PARSE_EXPECT_VALUE, _, v, by simp [lept_parse_value], rfl,
                fun _ => Or.inl rfl⟩
            · have hdisp : lept_parse_value errno ⟨a :: rest, st, sz, tp⟩ v =
                  Except.ok (lept_parse_number errno ⟨a :: rest, st, sz, tp⟩ v) := by
                simp [lept_parse_value, hn, ht116, hf, hq, h0]
              rw [hdisp]
              cases hv : lept_parse_number.validate (a :: rest) with
              | none =>
                refine ⟨LEPT_PARSE_INVALID_VALUE, ⟨a :: rest, st, sz, tp⟩, v, ?_, rfl,
                  fun _ => Or.inl rfl⟩
                simp [lept_parse_number, hv]
              | some p =>
                rw [lept_parse_number_valid errno ⟨a :: rest, st, sz, tp⟩ v p hv]
                by_cases ho : (strtodExact (a :: rest)).overflows = true
                · rw [if_pos ho]
                  exact ⟨_, _, _, rfl, rfl, fun _ => Or.inr rfl⟩
                · rw [if_neg ho]
                  exact ⟨_, _, _, rfl, rfl, fun h => absurd rfl h⟩

/-- The function `lept_parse` returns on every text and from every prior value:
no assertion fails and no loop runs on. -/
theorem lept_parse_returns (errno : Nat) (v : lept_value) (s : List Nat) :
    ∃ ret c2 v2,
      lept_parse_value errno ⟨s.dropWhile iswhitespace, none, 0, 0⟩ (lept_init v) =
        Except.ok (ret, c2, v2) ∧ c2.top = 0 ∧
      (ret ≠ LEPT_PARSE_OK → v2.type = LEPT_NULL) ∧
      lept_parse errno v s =
        Except.ok
          (if ret = LEPT_PARSE_OK then
            (if peek (c2.json.dropWhile iswhitespace) ≠ 0 then
              (LEPT_PARSE_ROOT_NOT_SINGULAR, { v2 with type := LEPT_NULL })
            else (LEPT_PARSE_OK, v2))
          else (ret, v2)) := by
  obtain ⟨ret, c2, v2, hval, htop, hv⟩ := lept_parse_value_returns errno
    ⟨s.dropWhile iswhitespace, none, 0, 0⟩ (lept_init v) (Or.inl ⟨rfl, rfl⟩)
  refine ⟨ret, c2, v2, hval, htop, ?_, lept_parse_of_value errno v s ret c2 v2 hval htop⟩
  intro hne
  rcases hv hne with h | h
  · rw [h]
    rfl
  · exact h

/-! ## Growth of the scratch stack -/

/-- The growth loop takes one growth step per iteration. -/
theorem grow_step (fuel need size : Nat) (h : need ≥ size) :
    lept_context_push.grow (fuel + 1) need size =
      lept_context_push.grow fuel need (lept_context_push.step size) := by
  simp [lept_context_push.grow, lept_context_push.step, h]

/-- From capacity 1 the growth loop never ends: a growth step leaves the capacity
at 1. -/
theorem grow_one (fuel need : Nat) (h : 1 ≤ need) : lept_context_push.grow fuel need 1 = none := by
  induction fuel with
  | zero => rfl
  | succ fuel ih =>
    unfold lept_context_push.grow
    rw [if_pos h]
    exact ih

/-- The function `lept_context_push` on a well-formed scratch stack. -/
theorem lept_context_push_ok (c : lept_context) (n : Nat) (hc : StackOk c) (hn : 0 < n) :
    ∃ c1, lept_context_push c n = Except.ok (c1, c.top) ∧ StackOk c1 ∧
      c1.top = c.top + n ∧ c1.top < c1.size ∧ c1.json = c.json ∧
      (c.top + n ≥ c.size → c.size < c1.size ∧
        (c.size ≠ 0 → lept_context_push.step c.size ≤ c1.size)) ∧
      (¬ c.top + n ≥ c.size → c1.size = c.size ∧ c1.stack = c.stack) ∧
      (c1.stack.getD []).take c.top = (c.stack.getD []).take c.top := by
  unfold lept_context_push
  rw [if_neg (by omega)]
  by_cases hge : c.top + n ≥ c.size
  · rw [if_pos hge]
    dsimp only
    have hsize0 : 2 ≤ (if c.size = 0 then LEPT_PARSE_STACK_INIT_SIZE else c.size) := by
      rcases hc with ⟨hs, _⟩ | ⟨hs, _⟩
      · simp [hs, LEPT_PARSE_STACK_INIT_SIZE]
      · have : c.size ≠ 0 := by omega
        simp [this, hs]
    have hfuel : c.top + n + 2 = (c.top + n + 1) + 1 := rfl
    by_cases h0 : c.size = 0
    · obtain ⟨size1, hgrow, hlt, hle⟩ := grow_ok (c.top + n + 2) (c.top + n) _ hsize0
        (by omega) (by omega)
      rw [hgrow]
      refine ⟨_, rfl, ?_, rfl, by simp only; omega, rfl, ?_, fun h => absurd hge h, ?_⟩
      · right
        exact ⟨by simp only; omega, by simp only; omega, _, rfl, by simp [length_realloc]⟩
      · intro _
        exact ⟨by simp only; omega, fun h => absurd h0 h⟩
      · rcases hc with ⟨_, ht⟩ | ⟨hs, _⟩
        · simp [ht]
        · omega
    · simp only [h0, if_false] at hsize0 ⊢
      rw [hfuel, grow_step _ _ _ hge]
      have hstep : c.size + 1 ≤ lept_context_push.step c.size := by
        unfold lept_context_push.step
        omega
      obtain ⟨size1, hgrow, hlt, hle⟩ := grow_ok (c.top + n + 1) (c.top + n)
        (lept_context_push.step c.size) (by omega) (by omega) (by omega)
      rw [hgrow]
      refine ⟨_, rfl, ?_, rfl, by simp only; omega, rfl, ?_, fun h => absurd hge h, ?_⟩
      · right
        exact ⟨by simp only; omega, by simp only; omega, _, rfl, by simp [length_realloc]⟩
      · intro _
        exact ⟨by simp only; omega, fun _ => hle⟩
      · rcases hc with ⟨hs, _⟩ | ⟨hs, hle2, buf, hb, hlen⟩
        · omega
        · simp only [realloc, hb, Option.getD_some, List.take_take]
          rw [min_eq_left (by omega), List.take_append_of_le_length (by omega)]
  · rw [if_neg hge]
    rcases hc with ⟨hs, _⟩ | ⟨hs, hle, buf, hb, hlen⟩
    · omega
    · refine ⟨_, rfl, ?_, rfl, by simp only; omega, rfl, fun h => absurd h hge,
        fun _ => ⟨rfl, rfl⟩, rfl⟩
      right
      exact ⟨hs, by simp only; omega, buf, hb, hlen⟩

/-- The function `lept_context_pop` on a well-formed scratch stack that holds at
least `n` bytes. -/
theorem lept_context_pop_ok (c : lept_context) (n : Nat) (hc : StackOk c) (hn : n ≤ c.top) :
    ∃ ptr, lept_context_pop c n = Except.ok ({ c with top := c.top - n }, ptr) ∧
      StackOk { c with top := c.top - n } ∧
      (ptr.getD []).take n = (used c).drop (c.top - n) := by
  unfold lept_context_pop
  rw [if_neg (by omega)]
  refine ⟨_, rfl, ?_, ?_⟩
  · rcases hc with ⟨hs, ht⟩ | ⟨hs, hle, buf, hb, hlen⟩
    · left
      exact ⟨hs, by simp only; omega⟩
    · right
      exact ⟨hs, by simp only; omega, buf, hb, hlen⟩
  · unfold used
    rw [List.drop_take]
    have : c.top - (c.top - n) = n := by omega
    rw [this]
    cases c.stack <;> simp

/-! ## The scratch stack in `size_t` arithmetic -/

/-- While one and a half times the needed size fits in a `size_t`, the growth
loop in `size_t` arithmetic is the growth loop on the natural numbers. -/
theorem grow_sz_eq (fuel need : Nat) (h : need + need / 2 < SIZE_MODULUS) :
    ∀ size, lept_context_push_sz.grow fuel need size = lept_context_push.grow fuel need size := by
  induction fuel with
  | zero => intro size; rfl
  | succ fuel ih =>
    intro size
    unfold lept_context_push_sz.grow lept_context_push.grow
    by_cases hge : need ≥ size
    · rw [if_pos hge, if_pos hge, Nat.mod_eq_of_lt (by omega)]
      exact ih _
    · rw [if_neg hge, if_neg hge]

/-- A growth loop that has ended within a bound ends with the same capacity
within every larger bound. -/
theorem grow_mono (fuel k need : Nat) :
    ∀ size r, lept_context_push.grow fuel need size = some r →
      lept_context_push.grow (fuel + k) need size = some r := by
  induction fuel with
  | zero =>
    intro size r h
    simp [lept_context_push.grow] at h
  | succ fuel ih =>
    intro size r h
    have hk : fuel + 1 + k = (fuel + k) + 1 := by omega
    rw [hk]
    unfold lept_context_push.grow at h ⊢
    by_cases hge : need ≥ size
    · rw [if_pos hge] at h ⊢
      exact ih _ _ h
    · rw [if_neg hge] at h ⊢
      exact h

/-- Without wrap-around (the sum `c->top + size` fits in a `size_t` and, when the
buffer has to grow, so does one and a half times that sum, which bounds the
grown capacity), and with a bound on the loop of at least `c->top + size + 2`,
`lept_context_push` in `size_t` arithmetic returns what `lept_context_push` on
the natural numbers returns. -/
theorem lept_context_push_sz_eq (fuel : Nat) (c : lept_context) (n : Nat)
    (hsum : c.top + n < SIZE_MODULUS)
    (hwrap : c.top + n ≥ c.size → c.top + n + (c.top + n) / 2 < SIZE_MODULUS)
    (hfuel : c.top + n + 2 ≤ fuel)
    (r : lept_context × Nat) (h : lept_context_push c n = Except.ok r) :
    lept_context_push_sz fuel c n = Except.ok r := by
  have hmod : (c.top + n) % SIZE_MODULUS = c.top + n := Nat.mod_eq_of_lt hsum
  unfold lept_context_push at h
  unfold lept_context_push_sz
  rw [hmod]
  by_cases hn : n = 0
  · rw [if_pos hn] at h
    simp at h
  · rw [if_neg hn] at h ⊢
    by_cases hge : c.top + n ≥ c.size
    · rw [if_pos hge] at h ⊢
      dsimp only at h ⊢
      rw [grow_sz_eq fuel _ (hwrap hge)]
      cases hg : lept_context_push.grow (c.top + n + 2) (c.top + n)
          (if c.size = 0 then LEPT_PARSE_STACK_INIT_SIZE else c.size) with
      | none =>
        rw [hg] at h
        simp at h
      | some size1 =>
        rw [hg] at h
        have hm := grow_mono _ (fuel - (c.top + n + 2)) _ _ _ hg
        rw [show c.top + n + 2 + (fuel - (c.top + n + 2)) = fuel by omega] at hm
        rw [hm]
        exact h
    · rw [if_neg hge] at h ⊢
      exact h

/-- From capacity 1 a push does not return, whatever the bound on the loop: a
growth step leaves the capacity at 1.  The program never holds this
capacity (it starts from 256), which is why a well-formed scratch stack has
capacity 0 or at least 2. -/
theorem lept_context_push_sz_capacity_one (fuel : Nat) :
    lept_context_push_sz fuel ⟨[], some [0], 1, 0⟩ 1 = Except.error Fault.diverges := by
  unfold lept_context_push_sz
  rw [if_neg (by decide), if_pos (by decide)]
  dsimp only
  rw [grow_sz_eq fuel _ (by decide)]
  have h1 : (if (1 : Nat) = 0 then LEPT_PARSE_STACK_INIT_SIZE else 1) = 1 := by decide
  rw [h1, grow_one fuel _ (by decide)]

/-! ## Whitespace around a text -/

/-- The function `lept_parse` reads its text only after the leading whitespace. -/
theorem lept_parse_congr (errno : Nat) (v : lept_value) (t1 t2 : List Nat)
    (h : t1.dropWhile iswhitespace = t2.dropWhile iswhitespace) :
    lept_parse errno v t1 = lept_parse errno v t2 := by
  unfold lept_parse
  simp only [lept_parse_whitespace, h]

/-- A literal holds no whitespace, so whitespace appended to a text does not
complete it. -/
theorem take_append_ws (lit : List Nat) (hlit : ∀ x ∈ lit, iswhitespace x = false) :
    ∀ (rest z : List Nat) (b : Nat), iswhitespace b = true →
      ((rest ++ b :: z).take lit.length = lit ↔ rest.take lit.length = lit) := by
  induction lit with
  | nil =>
    intro rest z b _
    simp
  | cons l lit ih =>
    intro rest z b hb
    have hl : iswhitespace l = false := hlit l (List.mem_cons_self l lit)
    cases rest with
    | nil =>
      have hne : b ≠ l := by
        intro h
        rw [h, hl] at hb
        exact absurd hb (by decide)
      simp [hne]
    | cons r rest =>
      have := ih (fun x hx => hlit x (List.mem_cons_of_mem l hx)) rest z b hb
      simp [this]

/-- Whitespace appended to a text without NUL changes nothing in what
`lept_parse_value` returns from a well-formed scratch stack: the status and
the value are the same, and after `LEPT_PARSE_OK` the appended bytes follow
the rest that was left. -/
theorem lept_parse_value_append_ws (errno : Nat) (c : lept_context) (v : lept_value)
    (b : Nat) (z : List Nat) (hc : StackOk c) (hne : c.json ≠ [])
    (hnul : ∀ x ∈ c.json, x ≠ 0) (hb : iswhitespace b = true)
    (hz : ∀ x ∈ z, iswhitespace x = true) :
    ∃ ret c2 c3 v2, lept_parse_value errno c v = Except.ok (ret, c2, v2) ∧
      lept_parse_value errno { c with json := c.json ++ b :: z } v = Except.ok (ret, c3, v2) ∧
      c2.top = c.top ∧ c3.top = c.top ∧
      (ret = LEPT_PARSE_OK → c3.json = c2.json ++ b :: z ∧ ∃ pre, c.json = pre ++ c2.json) := by
  have hok : ∀ (c2 : lept_context) (v2 : lept_value),
      lept_parse_value errno c v = Except.ok (LEPT_PARSE_OK, c2, v2) → c2.top = c.top →
      ∃ ret c2 c3 v2, lept_parse_value errno c v = Except.ok (ret, c2, v2) ∧
        lept_parse_value errno { c with json := c.json ++ b :: z } v = Except.ok (ret, c3, v2) ∧
        c2.top = c.top ∧ c3.top = c.top ∧
        (ret = LEPT_PARSE_OK → c3.json = c2.json ++ b :: z ∧ ∃ pre, c.json = pre ++ c2.json) := by
    intro c2 v2 h htop
    obtain ⟨hpre, hext⟩ := lept_parse_value_extend errno c c2 v v2 b z hb h
    exact ⟨_, c2, _, v2, h, hext, htop, htop, fun _ => ⟨rfl, hpre⟩⟩
  have hwsz : ∀ x ∈ b :: z, x ≠ 34 ∧ x ≠ 0 := by
    intro x hx
    have hx1 : iswhitespace x = true := by
      rcases List.mem_cons.1 hx with rfl | hx
      · exact hb
      · exact hz x hx
    have := ws_facts x hx1
    refine ⟨?_, this.2.2.2.2.2.2.2.2.2.2.2.2⟩
    intro h34
    rw [h34] at hx1
    exact absurd hx1 (by decide)
  obtain ⟨json, st, sz, tp⟩ := c
  dsimp only at hne hnul hok ⊢
  rcases json with _ | ⟨a, rest⟩
  · exact absurd rfl hne
  · have ha0 : a ≠ 0 := hnul a (List.mem_cons_self a rest)
    by_cases hn : a = 110
    · subst hn
      by_cases ht : rest.take 3 = [117, 108, 108]
      · exact hok _ _ (by rw [lept_parse_value_n, if_pos ht]) rfl
      · have ht2 : ¬ (rest ++ b :: z).take 3 = [117, 108, 108] := by
          intro h
          exact ht ((take_append_ws [117, 108, 108] (by decide) rest z b hb).1 h)
        refine ⟨LEPT_PARSE_INVALID_VALUE, ⟨rest, st, sz, tp⟩, ⟨rest ++ b :: z, st, sz, tp⟩, v,
          ?_, ?_, ?_, ?_, fun h => by simp at h⟩
        · rw [lept_parse_value_n, if_neg ht]
        · rw [List.cons_append, lept_parse_value_n, if_neg ht2]
        · rfl
        · rfl
    · by_cases ht116 : a = 116
      · subst ht116
        by_cases ht : rest.take 3 = [114, 117, 101]
        · exact hok _ _ (by rw [lept_parse_value_t, if_pos ht]) rfl
        · have ht2 : ¬ (rest ++ b :: z).take 3 = [114, 117, 101] := by
            intro h
            exact ht ((take_append_ws [114, 117, 101] (by decide) rest z b hb).1 h)
          refine ⟨LEPT_PARSE_INVALID_VALUE, ⟨rest, st, sz, tp⟩, ⟨rest ++ b :: z, st, sz, tp⟩, v,
            ?_, ?_, ?_, ?_, fun h => by simp at h⟩
          · rw [lept_parse_value_t, if_neg ht]
          · rw [List.cons_append, lept_parse_value_t, if_neg ht2]
          · rfl
          · rfl
      · by_cases hf : a = 102
        · subst hf
          by_cases ht : rest.take 4 = [97, 108, 115, 101]
          · exact hok _ _ (by rw [lept_parse_value_f, if_pos ht]) rfl
          · have ht2 : ¬ (rest ++ b :: z).take 4 = [97, 108, 115, 101] := by
              intro h
              exact ht ((take_append_ws [97, 108, 115, 101] (by decide) rest z b hb).1 h)
            refine ⟨LEPT_PARSE_INVALID_VALUE, ⟨rest, st, sz, tp⟩, ⟨rest ++ b :: z, st, sz, tp⟩, v,
              ?_, ?_, ?_, ?_, fun h => by simp at h⟩
            · rw [lept_parse_value_f, if_neg ht]
            · rw [List.cons_append, lept_parse_value_f, if_neg ht2]
            · rfl
            · rfl
        · by_cases hq : a = 34
          · subst hq
            have hc1 : StackOk ⟨rest, st, sz, tp⟩ := hc
            have hc2 : StackOk ⟨rest ++ b :: z, st, sz, tp⟩ := hc
            obtain ⟨s, hs, hp⟩ := string_split rest
            rcases hp with hp | ⟨r, hp⟩ | ⟨r, hp⟩
            · subst hp
              obtain ⟨c2, h2, ht2⟩ := lept_parse_string_open ⟨rest, st, sz, tp⟩ v rest hs hc1
              have hs3 : ∀ x ∈ rest ++ b :: z, x ≠ 34 ∧ x ≠ 0 := by
                intro x hx
                rcases List.mem_append.1 hx with hx | hx
                · exact hs x hx
                · exact hwsz x hx
              obtain ⟨c3, h3, ht3⟩ := lept_parse_string_open ⟨rest ++ b :: z, st, sz, tp⟩ v
                (rest ++ b :: z) hs3 hc2
              refine ⟨LEPT_PARSE_MISS_QUOTATION_MARK, c2, c3, v, ?_, ?_, ht2, ht3,
                fun h => by simp at h⟩
              · rw [lept_parse_value_string errno _ _ rest rfl]
                exact h2
              · rw [List.cons_append, lept_parse_value_string errno _ _ (rest ++ b :: z) rfl]
                exact h3
            · subst hp
              obtain ⟨c2, h2, ht2, _⟩ := lept_parse_string_closed ⟨s ++ 34 :: r, st, sz, tp⟩ v s r
                hs hc1
              have h4 : lept_parse_value errno ⟨34 :: (s ++ 34 :: r), st, sz, tp⟩ v =
                  Except.ok (LEPT_PARSE_OK, c2,
                    { lept_free v with s := some (s ++ [0]), len := s.length, type := LEPT_STRING }) := by
                rw [lept_parse_value_string errno _ _ (s ++ 34 :: r) rfl]
                exact h2
              exact hok c2 _ h4 ht2
            · exfalso
              apply hnul 0 _ rfl
              rw [hp]
              simp
          · have hdisp : ∀ q : List Nat,
                lept_parse_value errno ⟨a :: q, st, sz, tp⟩ v =
                  Except.ok (lept_parse_number errno ⟨a :: q, st, sz, tp⟩ v) := by
              intro q
              simp [lept_parse_value, hn, ht116, hf, hq, ha0]
            cases hv : lept_parse_number.validate (a :: rest) with
            | none =>
              have hv2 : lept_parse_number.validate ((a :: rest) ++ b :: z) = none := by
                rw [validate_append_ws _ z b hb, hv]
                rfl
              refine ⟨LEPT_PARSE_INVALID_VALUE, ⟨a :: rest, st, sz, tp⟩,
                ⟨a :: (rest ++ b :: z), st, sz, tp⟩, v, ?_, ?_, ?_, ?_, fun h => by simp at h⟩
              · rw [hdisp]
                simp [lept_parse_number, hv]
              · rw [List.cons_append, hdisp]
                rw [List.cons_append] at hv2
                simp [lept_parse_number, hv2]
              · rfl
              · rfl
            | some p =>
              have hstart := validate_some_start _ _ hv
              have hnum := lept_parse_number_valid errno ⟨a :: rest, st, sz, tp⟩ v p hv
              by_cases ho : (strtodExact (a :: rest)).overflows = true
              · have hv2 : lept_parse_number.validate ((a :: rest) ++ b :: z) =
                    some (p ++ b :: z) := by
                  rw [validate_append_ws _ z b hb, hv]
                  rfl
                have hs2 : strtodExact ((a :: rest) ++ b :: z) = strtodExact (a :: rest) :=
                  strtodExact_append_ws _ z b hb hstart
                have hnum2 := lept_parse_number_valid errno ⟨(a :: rest) ++ b :: z, st, sz, tp⟩ v
                  (p ++ b :: z) hv2
                rw [show (⟨(a :: rest) ++ b :: z, st, sz, tp⟩ : lept_context).json =
                  (a :: rest) ++ b :: z from rfl, hs2, if_pos ho] at hnum2
                rw [show (⟨a :: rest, st, sz, tp⟩ : lept_context).json = a :: rest from rfl,
                  if_pos ho] at hnum
                refine ⟨LEPT_PARSE_NUMBER_TOO_BIG, ⟨p, st, sz, tp⟩, ⟨p ++ b :: z, st, sz, tp⟩,
                  { v with n := Double.inf (strtodExact (a :: rest)).neg, type := LEPT_NULL },
                  ?_, ?_, ?_, ?_, fun h => by simp at h⟩
                · rw [hdisp, hnum]
                · rw [List.cons_append, hdisp, ← List.cons_append, hnum2]
                · rfl
                · rfl
              · rw [show (⟨a :: rest, st, sz, tp⟩ : lept_context).json = a :: rest from rfl,
                  if_neg ho] at hnum
                exact hok _ _ (by rw [hdisp, hnum]) rfl

/-- The whitespace skip ends at the same byte when whitespace is appended. -/
theorem peek_dropWhile_append_ws (r w : List Nat) (hw : ∀ x ∈ w, iswhitespace x = true) :
    peek ((r ++ w).dropWhile iswhitespace) = peek (r.dropWhile iswhitespace) := by
  by_cases hd : r.dropWhile iswhitespace = []
  · have hall : ∀ x ∈ r, iswhitespace x = true := by
      simpa [List.dropWhile_eq_nil_iff] using hd
    have hw0 : w.dropWhile iswhitespace = [] := by
      have := dropWhile_ws_append w [] hw
      simpa using this
    rw [dropWhile_ws_append r w hall, hw0, hd]
  · rw [dropWhile_append_of_ne_nil iswhitespace r w hd]
    obtain ⟨x, l, hx⟩ := List.exists_cons_of_ne_nil hd
    rw [hx]
    rfl

/-! ## The claims -/

set_option exponentiation.threshold 2000 in
set_option maxRecDepth 100000 in
/-- C1 as the claim states it fails: the text `1e999x` holds no whitespace and no
NUL and does not match the grammar, and `lept_parse` returns
`LEPT_PARSE_NUMBER_TOO_BIG` for it. -/
theorem C1_too_big_counterexample :
    (∀ b ∈ bytes "1e999x", iswhitespace b = false ∧ b ≠ 0) ∧
      ¬ NumberGrammar (bytes "1e999x") ∧
      lept_parse 0 sampleValue (bytes "1e999x") =
        Except.ok (LEPT_PARSE_NUMBER_TOO_BIG,
          { sampleValue with n := Double.inf false, type := LEPT_NULL }) := by
  refine ⟨by decide, ?_, by decide⟩
  rw [NumberGrammar_iff]
  decide

/-- C1, amended: for a text `s` without whitespace and NUL, (1) when `s` as a whole
matches the number grammar, `lept_parse` returns `LEPT_PARSE_NUMBER_TOO_BIG` if
the conversion overflows and `LEPT_PARSE_OK` with tag `LEPT_NUMBER` otherwise;
(2) `LEPT_PARSE_OK` with tag `LEPT_NUMBER` is returned only when `s` as a whole
matches the grammar; (3) `LEPT_PARSE_NUMBER_TOO_BIG` is returned only when a
prefix of `s` matches the grammar. -/
theorem C1_number_grammar (errno : Nat) (v : lept_value) (s : List Nat)
    (hws : ∀ b ∈ s, iswhitespace b = false) (hnul : ∀ b ∈ s, b ≠ 0) :
    (NumberGrammar s →
        lept_parse errno v s =
          Except.ok
            (if (strtodExact s).overflows = true then
              (LEPT_PARSE_NUMBER_TOO_BIG,
                { v with n := Double.inf (strtodExact s).neg, type := LEPT_NULL })
            else
              (LEPT_PARSE_OK,
                { v with n := Double.finite (strtodExact s), type := LEPT_NUMBER }))) ∧
      (∀ v1, lept_parse errno v s = Except.ok (LEPT_PARSE_OK, v1) → v1.type = LEPT_NUMBER →
        NumberGrammar s) ∧
      (∀ v1, lept_parse errno v s = Except.ok (LEPT_PARSE_NUMBER_TOO_BIG, v1) →
        ∃ span rest, s = span ++ rest ∧ NumberGrammar span) := by
  refine ⟨lept_parse_number_text errno v s, ?_, ?_⟩
  · intro v1 h ht
    obtain ⟨ret, c2, v2, hval, _, hres⟩ := lept_parse_inv errno v s _ _ h
    rw [dropWhile_ws_free s hws] at hval
    by_cases hr : ret = LEPT_PARSE_OK
    · by_cases hp : peek (c2.json.dropWhile iswhitespace) = 0
      · simp only [hr, hp, if_true, ne_eq, not_true_eq_false, if_false, Prod.mk.injEq,
          true_and] at hres
        subst hres
        have hv := lept_parse_value_number_inv errno _ _ _ _ _ hval (Or.inr ⟨hr, ht⟩)
        obtain ⟨span, hs, hg⟩ := validate_sound _ _ hv
        have hsub : ∀ b ∈ c2.json, b ∈ s := by
          intro b hb
          change b ∈ s
          rw [show s = span ++ c2.json from hs]
          exact List.mem_append_right span hb
        have hnil := nil_of_peek_zero c2.json (fun b hb => hws b (hsub b hb))
          (fun b hb => hnul b (hsub b hb)) hp
        rw [hnil, List.append_nil] at hs
        change s = span at hs
        rw [hs]
        exact hg
      · simp [hr, hp] at hres
    · simp only [hr, if_false, Prod.mk.injEq] at hres
      exact absurd hres.1.symm hr
  · intro v1 h
    obtain ⟨ret, c2, v2, hval, _, hres⟩ := lept_parse_inv errno v s _ _ h
    rw [dropWhile_ws_free s hws] at hval
    by_cases hr : ret = LEPT_PARSE_OK
    · by_cases hp : peek (c2.json.dropWhile iswhitespace) = 0
      · simp [hr, hp] at hres
      · simp [hr, hp] at hres
    · simp only [hr, if_false, Prod.mk.injEq] at hres
      have hv := lept_parse_value_number_inv errno _ _ _ _ _ hval (Or.inl hres.1.symm)
      obtain ⟨span, hs, hg⟩ := validate_sound _ _ hv
      exact ⟨span, c2.json, hs, hg⟩

set_option exponentiation.threshold 2000 in
set_option maxRecDepth 100000 in
/-- Witness of the amended C1: the text `-1.5e3`, which matches the grammar and
does not overflow. -/
theorem C1_number_grammar_witness :
    lept_parse 0 sampleValue (bytes "-1.5e3") =
      Except.ok (LEPT_PARSE_OK,
        { sampleValue with n := Double.finite ⟨true, 15, 10, 2⟩, type := LEPT_NUMBER }) :=
  (C1_number_grammar 0 sampleValue (bytes "-1.5e3") (by decide) (by decide)).1
    ((NumberGrammar_iff _).2 (by decide))

/-- C2 as the claim states it fails: `lept_parse("truee")` returns
`LEPT_PARSE_ROOT_NOT_SINGULAR`, not `LEPT_PARSE_INVALID_VALUE`. -/
theorem C2_truee_counterexample :
    lept_parse 0 sampleValue (bytes "truee") =
        Except.ok (LEPT_PARSE_ROOT_NOT_SINGULAR, { sampleValue with type := LEPT_NULL }) ∧
      ¬ ∃ v1, lept_parse 0 sampleValue (bytes "truee") =
        Except.ok (LEPT_PARSE_INVALID_VALUE, v1) := by
  have h : lept_parse 0 sampleValue (bytes "truee") =
      Except.ok (LEPT_PARSE_ROOT_NOT_SINGULAR, { sampleValue with type := LEPT_NULL }) := by
    decide
  refine ⟨h, ?_⟩
  rintro ⟨v1, h1⟩
  rw [h] at h1
  simp at h1

/-- C2, amended: for each literal `L` of `null`, `true`, `false` and every
non-empty `t` whose first byte is neither whitespace nor NUL,
`lept_parse(L ++ t)` returns `LEPT_PARSE_ROOT_NOT_SINGULAR` and the tag is
`LEPT_NULL`. -/
theorem C2_literal_then_text (errno : Nat) (v : lept_value) (L t : List Nat)
    (hL : L = bytes "null" ∨ L = bytes "true" ∨ L = bytes "false")
    (ht : t ≠ []) (hws : iswhitespace (peek t) = false) (h0 : peek t ≠ 0) :
    lept_parse errno v (L ++ t) =
      Except.ok (LEPT_PARSE_ROOT_NOT_SINGULAR, { v with type := LEPT_NULL }) := by
  obtain ⟨b, t1, rfl⟩ := List.exists_cons_of_ne_nil ht
  simp only [peek_cons] at hws h0
  have hdt : (b :: t1).dropWhile iswhitespace = b :: t1 := dropWhile_ws_cons b t1 hws
  rw [bytes_null, bytes_true, bytes_false] at hL
  rcases hL with rfl | rfl | rfl
  · have hval := lept_parse_value_n errno none 0 0 (lept_init v) ([117, 108, 108] ++ b :: t1)
    rw [if_pos (by simp)] at hval
    have hdrop : ([110, 117, 108, 108] ++ b :: t1).dropWhile iswhitespace =
        110 :: ([117, 108, 108] ++ b :: t1) := dropWhile_ws_cons 110 _ (by decide)
    rw [← hdrop] at hval
    rw [lept_parse_of_value errno v _ _ _ _ hval rfl]
    simp [lept_init, hdt, h0, hws]
  · have hval := lept_parse_value_t errno none 0 0 (lept_init v) ([114, 117, 101] ++ b :: t1)
    rw [if_pos (by simp)] at hval
    have hdrop : ([116, 114, 117, 101] ++ b :: t1).dropWhile iswhitespace =
        116 :: ([114, 117, 101] ++ b :: t1) := dropWhile_ws_cons 116 _ (by decide)
    rw [← hdrop] at hval
    rw [lept_parse_of_value errno v _ _ _ _ hval rfl]
    simp [lept_init, hdt, h0, hws]
  · have hval := lept_parse_value_f errno none 0 0 (lept_init v) ([97, 108, 115, 101] ++ b :: t1)
    rw [if_pos (by simp)] at hval
    have hdrop : ([102, 97, 108, 115, 101] ++ b :: t1).dropWhile iswhitespace =
        102 :: ([97, 108, 115, 101] ++ b :: t1) := dropWhile_ws_cons 102 _ (by decide)
    rw [← hdrop] at hval
    rw [lept_parse_of_value errno v _ _ _ _ hval rfl]
    simp [lept_init, hdt, h0, hws]

/-- Witness of the amended C2: the text `truee`. -/
theorem C2_literal_then_text_witness :
    lept_parse 0 sampleValue (bytes "true" ++ bytes "e") =
      Except.ok (LEPT_PARSE_ROOT_NOT_SINGULAR, { sampleValue with type := LEPT_NULL }) :=
  C2_literal_then_text 0 sampleValue (bytes "true") (bytes "e") (Or.inr (Or.inl rfl))
    (by decide) (by decide) (by decide)

/-- C3 as the claim states it fails: in the text `nullx` the first byte is `n` and
the bytes that follow it, `ullx`, are not exactly `ull`, yet `lept_parse`
returns `LEPT_PARSE_ROOT_NOT_SINGULAR`, not `LEPT_PARSE_INVALID_VALUE`: the
scanner compares three bytes and accepts the literal. -/
theorem C3_nullx_counterexample :
    (bytes "nullx").head? = some 110 ∧ (bytes "nullx").tail = bytes "ullx" ∧
      bytes "ullx" ≠ bytes "ull" ∧
      lept_parse 0 sampleValue (bytes "nullx") =
        Except.ok (LEPT_PARSE_ROOT_NOT_SINGULAR, { sampleValue with type := LEPT_NULL }) ∧
      ¬ ∃ v1, lept_parse 0 sampleValue (bytes "nullx") =
        Except.ok (LEPT_PARSE_INVALID_VALUE, v1) := by
  refine ⟨by decide, by decide, by decide, by decide, ?_⟩
  rintro ⟨v1, h⟩
  have h2 : lept_parse 0 sampleValue (bytes "nullx") =
      Except.ok (LEPT_PARSE_ROOT_NOT_SINGULAR, { sampleValue with type := LEPT_NULL }) := by
    decide
  rw [h2] at h
  simp at h

/-- C3, amended: when the first non-whitespace byte is `n`, `t` or `f` and the next
three bytes (after `f`: the next four) are not exactly `ull`, `rue`, `alse`
(also when the input ends before them), `lept_parse` returns
`LEPT_PARSE_INVALID_VALUE` with tag `LEPT_NULL`; and the exact texts `null`,
`true`, `false` return `LEPT_PARSE_OK` with tags `LEPT_NULL`, `LEPT_TRUE`,
`LEPT_FALSE`. -/
theorem C3_literal_exact (errno : Nat) (v : lept_value) (w rest : List Nat)
    (hw : ∀ x ∈ w, iswhitespace x = true) :
    (rest.take 3 ≠ bytes "ull" →
        lept_parse errno v (w ++ 110 :: rest) =
          Except.ok (LEPT_PARSE_INVALID_VALUE, { v with type := LEPT_NULL })) ∧
      (rest.take 3 ≠ bytes "rue" →
        lept_parse errno v (w ++ 116 :: rest) =
          Except.ok (LEPT_PARSE_INVALID_VALUE, { v with type := LEPT_NULL })) ∧
      (rest.take 4 ≠ bytes "alse" →
        lept_parse errno v (w ++ 102 :: rest) =
          Except.ok (LEPT_PARSE_INVALID_VALUE, { v with type := LEPT_NULL })) ∧
      lept_parse errno v (bytes "null") = Except.ok (LEPT_PARSE_OK, { v with type := LEPT_NULL }) ∧
      lept_parse errno v (bytes "true") = Except.ok (LEPT_PARSE_OK, { v with type := LEPT_TRUE }) ∧
      lept_parse errno v (bytes "false") =
        Except.ok (LEPT_PARSE_OK, { v with type := LEPT_FALSE }) := by
  have hull : bytes "ull" = [117, 108, 108] := by decide
  have hrue : bytes "rue" = [114, 117, 101] := by decide
  have halse : bytes "alse" = [97, 108, 115, 101] := by decide
  rw [hull, hrue, halse, bytes_null, bytes_true, bytes_false]
  refine ⟨?_, ?_, ?_, ?_, ?_, ?_⟩
  · intro h
    have hdrop : (w ++ 110 :: rest).dropWhile iswhitespace = 110 :: rest := by
      rw [dropWhile_ws_append w _ hw, dropWhile_ws_cons 110 rest (by decide)]
    have hval := lept_parse_value_n errno none 0 0 (lept_init v) rest
    rw [if_neg h, ← hdrop] at hval
    rw [lept_parse_of_value errno v _ _ _ _ hval rfl]
    simp [lept_init]
  · intro h
    have hdrop : (w ++ 116 :: rest).dropWhile iswhitespace = 116 :: rest := by
      rw [dropWhile_ws_append w _ hw, dropWhile_ws_cons 116 rest (by decide)]
    have hval := lept_parse_value_t errno none 0 0 (lept_init v) rest
    rw [if_neg h, ← hdrop] at hval
    rw [lept_parse_of_value errno v _ _ _ _ hval rfl]
    simp [lept_init]
  · intro h
    have hdrop : (w ++ 102 :: rest).dropWhile iswhitespace = 102 :: rest := by
      rw [dropWhile_ws_append w _ hw, dropWhile_ws_cons 102 rest (by decide)]
    have hval := lept_parse_value_f errno none 0 0 (lept_init v) rest
    rw [if_neg h, ← hdrop] at hval
    rw [lept_parse_of_value errno v _ _ _ _ hval rfl]
    simp [lept_init]
  · have hval := lept_parse_value_n errno none 0 0 (lept_init v) [117, 108, 108]
    rw [if_pos (by decide), ← dropWhile_ws_cons 110 [117, 108, 108] (by decide)] at hval
    rw [lept_parse_of_value errno v _ _ _ _ hval rfl]
    simp [lept_init]
  · have hval := lept_parse_value_t errno none 0 0 (lept_init v) [114, 117, 101]
    rw [if_pos (by decide), ← dropWhile_ws_cons 116 [114, 117, 101] (by decide)] at hval
    rw [lept_parse_of_value errno v _ _ _ _ hval rfl]
    simp [lept_init]
  · have hval := lept_parse_value_f errno none 0 0 (lept_init v) [97, 108, 115, 101]
    rw [if_pos (by decide), ← dropWhile_ws_cons 102 [97, 108, 115, 101] (by decide)] at hval
    rw [lept_parse_of_value errno v _ _ _ _ hval rfl]
    simp [lept_init]

/-- Witness of the amended C3: one leading space and the text `nul`, which ends early. -/
theorem C3_literal_exact_witness :
    lept_parse 0 sampleValue (bytes " nul") =
      Except.ok (LEPT_PARSE_INVALID_VALUE, { sampleValue with type := LEPT_NULL }) :=
  (C3_literal_exact 0 sampleValue [32] (bytes "ul") (by decide)).1 (by decide)

/-- C4: for an input that starts with a valid `["-"] int` followed by `.` and then
a byte that is not a digit (or the end of the input), and for an input whose
`["-"] int [frac]` is followed by `e` or `E`, an optional sign and then a byte
that is not a digit (or the end of the input), `lept_parse` returns
`LEPT_PARSE_INVALID_VALUE`, and `lept_parse_number` returns it with the cursor
and the value unchanged.  (An absent sign means the byte after `e` is not a
sign.) -/
theorem C4_missing_digits (errno : Nat) (v : lept_value) (sg i f sgn rest : List Nat) (m : Nat)
    (hsg : sg = [] ∨ sg = [45]) (hi : IntPart i) (hf : f = [] ∨ FracPart f)
    (hm : m = 101 ∨ m = 69)
    (hsgn : (sgn = [] ∧ peek rest ≠ 43 ∧ peek rest ≠ 45) ∨ sgn = [43] ∨ sgn = [45])
    (hrest : ¬ Digit (peek rest)) :
    (lept_parse errno v (sg ++ (i ++ 46 :: rest)) =
        Except.ok (LEPT_PARSE_INVALID_VALUE, { v with type := LEPT_NULL }) ∧
      ∀ (c : lept_context) (v1 : lept_value), c.json = sg ++ (i ++ 46 :: rest) →
        lept_parse_number errno c v1 = (LEPT_PARSE_INVALID_VALUE, c, v1)) ∧
    (lept_parse errno v (sg ++ (i ++ (f ++ m :: (sgn ++ rest)))) =
        Except.ok (LEPT_PARSE_INVALID_VALUE, { v with type := LEPT_NULL }) ∧
      ∀ (c : lept_context) (v1 : lept_value), c.json = sg ++ (i ++ (f ++ m :: (sgn ++ rest))) →
        lept_parse_number errno c v1 = (LEPT_PARSE_INVALID_VALUE, c, v1)) := by
  constructor
  · apply invalid_number errno v _ (number_start sg i _ hsg hi)
    rw [int_pass sg i (46 :: rest) hsg hi (by simp [ISDIGIT])]
    exact frac_none rest hrest
  · apply invalid_number errno v _ (number_start sg i _ hsg hi)
    have hmd : ISDIGIT m = false ∧ m ≠ 46 := by
      rcases hm with rfl | rfl <;> exact ⟨by decide, by decide⟩
    have hexp := exp_none m sgn rest hm hsgn hrest
    rcases hf with rfl | hf
    · rw [List.nil_append, int_pass sg i _ hsg hi (by simpa using hmd.1),
        frac_skip _ (by simpa using hmd.2)]
      exact hexp
    · have hfd : ISDIGIT (peek (f ++ m :: (sgn ++ rest))) = false := by
        obtain ⟨ds, rfl, _⟩ := hf
        simp [ISDIGIT]
      rw [int_pass sg i _ hsg hi hfd, frac_pass f _ hf (by simpa using hmd.1)]
      exact hexp

/-- Witness of C4: the text `1.` for the first form and `1e` for the second. -/
theorem C4_missing_digits_witness :
    (lept_parse 0 sampleValue (bytes "1.") =
        Except.ok (LEPT_PARSE_INVALID_VALUE, { sampleValue with type := LEPT_NULL }) ∧
      ∀ (c : lept_context) (v1 : lept_value), c.json = bytes "1." →
        lept_parse_number 0 c v1 = (LEPT_PARSE_INVALID_VALUE, c, v1)) ∧
    (lept_parse 0 sampleValue (bytes "1e") =
        Except.ok (LEPT_PARSE_INVALID_VALUE, { sampleValue with type := LEPT_NULL }) ∧
      ∀ (c : lept_context) (v1 : lept_value), c.json = bytes "1e" →
        lept_parse_number 0 c v1 = (LEPT_PARSE_INVALID_VALUE, c, v1)) :=
  C4_missing_digits 0 sampleValue [] (bytes "1") [] [] [] 101 (Or.inl rfl)
    (Or.inr ⟨49, [], rfl, by decide, by simp⟩) (Or.inl rfl) (Or.inl rfl)
    (Or.inl ⟨rfl, by decide, by decide⟩) (by decide)

/-- C5: when the first non-whitespace byte of the input is not `n`, `t`, `f`, `"`,
`-`, a digit or NUL, `lept_parse` returns `LEPT_PARSE_INVALID_VALUE` and the
value's tag is `LEPT_NULL`. -/
theorem C5_invalid_first_byte (errno : Nat) (v : lept_value) (w rest : List Nat) (b : Nat)
    (hw : ∀ x ∈ w, iswhitespace x = true) (hb : iswhitespace b = false)
    (hn : b ≠ 110) (ht : b ≠ 116) (hf : b ≠ 102) (hq : b ≠ 34) (hm : b ≠ 45)
    (hd : ¬ Digit b) (h0 : b ≠ 0) :
    lept_parse errno v (w ++ b :: rest) =
      Except.ok (LEPT_PARSE_INVALID_VALUE, { v with type := LEPT_NULL }) := by
  have hdrop : (w ++ b :: rest).dropWhile iswhitespace = b :: rest := by
    rw [dropWhile_ws_append w _ hw, dropWhile_ws_cons b rest hb]
  have h19 : ISDIGIT1TO9 b = false := by
    unfold Digit at hd
    simp only [ISDIGIT1TO9, Bool.and_eq_false_imp, decide_eq_true_eq, decide_eq_false_iff_not]
    omega
  have h48 : b ≠ 48 := by
    unfold Digit at hd
    omega
  have hval : lept_parse_value errno ⟨(w ++ b :: rest).dropWhile iswhitespace, none, 0, 0⟩
      (lept_init v) =
      Except.ok (LEPT_PARSE_INVALID_VALUE,
        ⟨(w ++ b :: rest).dropWhile iswhitespace, none, 0, 0⟩, lept_init v) := by
    rw [hdrop]
    simp [lept_parse_value, lept_parse_number, lept_parse_number.validate, hn, ht, hf, hq, hm, h0,
      h19, h48]
  rw [lept_parse_of_value errno v _ _ _ _ hval rfl]
  simp [lept_init]

/-- Witnesses of C5: the texts `+1` and `.1`. -/
theorem C5_invalid_first_byte_witness :
    lept_parse 0 sampleValue (bytes "+1") =
        Except.ok (LEPT_PARSE_INVALID_VALUE, { sampleValue with type := LEPT_NULL }) ∧
      lept_parse 0 sampleValue (bytes ".1") =
        Except.ok (LEPT_PARSE_INVALID_VALUE, { sampleValue with type := LEPT_NULL }) :=
  ⟨C5_invalid_first_byte 0 sampleValue [] (bytes "1") 43 (by simp) (by decide) (by decide)
      (by decide) (by decide) (by decide) (by decide) (by decide) (by decide),
    C5_invalid_first_byte 0 sampleValue [] (bytes "1") 46 (by simp) (by decide) (by decide)
      (by decide) (by decide) (by decide) (by decide) (by decide) (by decide)⟩

/-- C6: `lept_parse` returns `LEPT_PARSE_EXPECT_VALUE` exactly when the input, read
as a NUL-terminated string (its bytes before the first `0`), is empty or holds
only the four whitespace bytes. -/
theorem C6_expect_value_iff (errno : Nat) (v : lept_value) (s : List Nat) :
    (∃ v1, lept_parse errno v s = Except.ok (LEPT_PARSE_EXPECT_VALUE, v1)) ↔
      ∀ b ∈ s.takeWhile (fun x => x != 0), b = 32 ∨ b = 9 ∨ b = 10 ∨ b = 13 := by
  have hws : ∀ b : Nat, iswhitespace b = true ↔ (b = 32 ∨ b = 9 ∨ b = 10 ∨ b = 13) := by
    intro b
    simp [iswhitespace, or_assoc]
  have hiff := peek_dropWhile_ws s
  simp only [hws] at hiff
  rw [← hiff]
  constructor
  · rintro ⟨v1, h⟩
    obtain ⟨ret, c2, v2, hval, _, hres⟩ := lept_parse_inv errno v s _ _ h
    have hret : ret = LEPT_PARSE_EXPECT_VALUE := by
      by_cases hr : ret = LEPT_PARSE_OK
      · by_cases hp : peek (c2.json.dropWhile iswhitespace) = 0
        · simp [hr, hp] at hres
        · simp [hr, hp] at hres
      · simp only [hr, if_false, Prod.mk.injEq] at hres
        exact hres.1.symm
    subst hret
    exact lept_parse_value_expect errno _ _ _ _ hval
  · intro hp
    refine ⟨lept_init v, ?_⟩
    have hval : lept_parse_value errno ⟨s.dropWhile iswhitespace, none, 0, 0⟩ (lept_init v) =
        Except.ok (LEPT_PARSE_EXPECT_VALUE, ⟨s.dropWhile iswhitespace, none, 0, 0⟩, lept_init v) := by
      simp [lept_parse_value, hp]
    rw [lept_parse_of_value errno v _ _ _ _ hval rfl]
    simp

/-- C7: for every text `x` (a C string: no NUL inside) on which `lept_parse`
returns `LEPT_PARSE_OK`, every non-empty run `w` of whitespace bytes and every
non-empty `t` whose first byte is neither whitespace nor NUL,
`lept_parse(x ++ w ++ t)` returns `LEPT_PARSE_ROOT_NOT_SINGULAR` and the tag is
`LEPT_NULL`. -/
theorem C7_root_not_singular (errno : Nat) (v v1 : lept_value) (x w t : List Nat)
    (hx : ∀ b ∈ x, b ≠ 0) (hok : lept_parse errno v x = Except.ok (LEPT_PARSE_OK, v1))
    (hw : w ≠ []) (hws : ∀ b ∈ w, iswhitespace b = true)
    (ht : t ≠ []) (ht1 : iswhitespace (peek t) = false) (ht0 : peek t ≠ 0) :
    lept_parse errno v (x ++ (w ++ t)) =
      Except.ok (LEPT_PARSE_ROOT_NOT_SINGULAR, { v1 with type := LEPT_NULL }) := by
  obtain ⟨ret, c2, v2, hval, htop, hres⟩ := lept_parse_inv errno v x _ _ hok
  obtain ⟨b, w1, rfl⟩ := List.exists_cons_of_ne_nil hw
  obtain ⟨tb, t1, rfl⟩ := List.exists_cons_of_ne_nil ht
  simp only [peek_cons] at ht1 ht0
  have hb : iswhitespace b = true := hws b (List.mem_cons_self b w1)
  have hret : ret = LEPT_PARSE_OK ∧ peek (c2.json.dropWhile iswhitespace) = 0 ∧ v1 = v2 := by
    by_cases hr : ret = LEPT_PARSE_OK
    · by_cases hp : peek (c2.json.dropWhile iswhitespace) = 0
      · simp only [hr, hp, if_true, ne_eq, not_true_eq_false, if_false, Prod.mk.injEq,
          true_and] at hres
        exact ⟨hr, hp, hres⟩
      · simp [hr, hp] at hres
    · simp only [hr, if_false, Prod.mk.injEq] at hres
      exact absurd hres.1.symm hr
  obtain ⟨hr, hp, hv⟩ := hret
  subst hr hv
  have hy : x.dropWhile iswhitespace ≠ [] := by
    intro hnil
    rw [hnil] at hval
    simp [lept_parse_value] at hval
  obtain ⟨⟨pre, hpre⟩, hext⟩ := lept_parse_value_extend errno _ _ _ _ b (w1 ++ tb :: t1) hb hval
  dsimp only at hpre hext
  have hdrop : (x ++ (b :: w1 ++ tb :: t1)).dropWhile iswhitespace =
      x.dropWhile iswhitespace ++ b :: (w1 ++ tb :: t1) :=
    dropWhile_append_of_ne_nil iswhitespace x _ hy
  rw [← hdrop] at hext
  rw [lept_parse_of_value errno v _ _ _ _ hext htop]
  have hsub : ∀ a ∈ c2.json, a ≠ 0 := by
    intro a ha
    apply hx a
    apply (List.dropWhile_suffix iswhitespace).subset
    rw [hpre]
    exact List.mem_append_right pre ha
  have hallws := all_ws_of_peek_zero c2.json hsub hp
  have hrest : (c2.json ++ b :: (w1 ++ tb :: t1)).dropWhile iswhitespace = tb :: t1 := by
    rw [dropWhile_ws_append c2.json _ hallws]
    have : b :: (w1 ++ tb :: t1) = (b :: w1) ++ tb :: t1 := rfl
    rw [this, dropWhile_ws_append (b :: w1) _ hws, dropWhile_ws_cons tb t1 ht1]
  simp [hrest, ht0]

set_option exponentiation.threshold 2000 in
set_option maxRecDepth 100000 in
/-- Witnesses of C7: the texts `1 2` and `null x`. -/
theorem C7_root_not_singular_witness :
    lept_parse 0 sampleValue (bytes "1" ++ (bytes " " ++ bytes "2")) =
        Except.ok (LEPT_PARSE_ROOT_NOT_SINGULAR,
          { sampleValue with n := Double.finite ⟨false, 1, 10, 0⟩, type := LEPT_NULL }) ∧
      lept_parse 0 sampleValue (bytes "null" ++ (bytes " " ++ bytes "x")) =
        Except.ok (LEPT_PARSE_ROOT_NOT_SINGULAR, { sampleValue with type := LEPT_NULL }) :=
  ⟨C7_root_not_singular 0 sampleValue
      { sampleValue with n := Double.finite ⟨false, 1, 10, 0⟩, type := LEPT_NUMBER }
      (bytes "1") (bytes " ") (bytes "2") (by decide) (by decide) (by decide) (by decide)
      (by decide) (by decide) (by decide),
    C7_root_not_singular 0 sampleValue { sampleValue with type := LEPT_NULL }
      (bytes "null") (bytes " ") (bytes "x") (by decide) (by decide) (by decide) (by decide)
      (by decide) (by decide) (by decide)⟩

set_option exponentiation.threshold 2000 in
set_option maxRecDepth 100000 in
/-- C8 as the claim states it fails: the text `1.7976931348623158e308` matches
the number grammar and its magnitude exceeds the largest finite `double`,
`2^1024 - 2^971`, but by less than half an ulp, so the conversion rounds to
that largest finite `double`, not to infinity, and `lept_parse` returns
`LEPT_PARSE_OK` with tag `LEPT_NUMBER`. -/
theorem C8_largest_finite_counterexample :
    NumberGrammar (bytes "1.7976931348623158e308") ∧
      strtodExact (bytes "1.7976931348623158e308") = ⟨false, 17976931348623158, 10, 292⟩ ∧
      (strtodExact (bytes "1.7976931348623158e308")).exceedsLargestFinite = true ∧
      2 ^ 1024 - 2 ^ 971 < 17976931348623158 * 10 ^ 292 ∧
      (strtodExact (bytes "1.7976931348623158e308")).overflows = false ∧
      lept_parse 0 sampleValue (bytes "1.7976931348623158e308") =
        Except.ok (LEPT_PARSE_OK,
          { sampleValue with n := Double.finite ⟨false, 17976931348623158, 10, 292⟩,
                             type := LEPT_NUMBER }) := by
  refine ⟨(NumberGrammar_iff _).2 (by decide), by decide, by decide, by decide, by decide,
    by decide⟩

/-- C8, amended: for an input that matches the number grammar and whose magnitude
is at least `2^1024 - 2^970`, half an ulp above the largest finite `double`
(so that the conversion, rounding to nearest, gives plus or minus infinity),
`lept_parse` returns `LEPT_PARSE_NUMBER_TOO_BIG` with tag `LEPT_NULL`, and
`lept_parse_number` has moved the cursor past the whole number. -/
theorem C8_number_too_big (errno : Nat) (v : lept_value) (s : List Nat) (h : NumberGrammar s)
    (ho : (strtodExact s).overflows = true) :
    lept_parse errno v s =
        Except.ok (LEPT_PARSE_NUMBER_TOO_BIG,
          { v with n := Double.inf (strtodExact s).neg, type := LEPT_NULL }) ∧
      ∀ (c : lept_context) (v1 : lept_value), c.json = s →
        lept_parse_number errno c v1 =
          (LEPT_PARSE_NUMBER_TOO_BIG, { c with json := [] },
            { v1 with n := Double.inf (strtodExact s).neg, type := LEPT_NULL }) := by
  constructor
  · rw [lept_parse_number_text errno v s h, if_pos ho]
  · intro c v1 hc
    have hv : lept_parse_number.validate c.json = some [] := by
      rw [hc]
      exact validate_complete s h
    rw [lept_parse_number_valid errno c v1 [] hv, hc, if_pos ho]

set_option exponentiation.threshold 2000 in
set_option maxRecDepth 100000 in
/-- Witness of the amended C8: the text `1e1000`. -/
theorem C8_number_too_big_witness :
    lept_parse 0 sampleValue (bytes "1e1000") =
        Except.ok (LEPT_PARSE_NUMBER_TOO_BIG,
          { sampleValue with n := Double.inf false, type := LEPT_NULL }) ∧
      ∀ (c : lept_context) (v1 : lept_value), c.json = bytes "1e1000" →
        lept_parse_number 0 c v1 =
          (LEPT_PARSE_NUMBER_TOO_BIG, { c with json := [] },
            { v1 with n := Double.inf false, type := LEPT_NULL }) :=
  C8_number_too_big 0 sampleValue (bytes "1e1000") ((NumberGrammar_iff _).2 (by decide))
    (by decide)

/-- C9: for every byte sequence `s` without `"` and NUL, of any length,
`lept_parse('"' ++ s ++ '"')` returns `LEPT_PARSE_OK` with tag `LEPT_STRING`,
`lept_get_string_length` is the length of `s`, and `lept_get_string` is the
payload `s` followed by its terminator. -/
theorem C9_string_value (errno : Nat) (v : lept_value) (s : List Nat)
    (hs : ∀ b ∈ s, b ≠ 34 ∧ b ≠ 0) :
    lept_parse errno v (34 :: (s ++ [34])) =
        Except.ok (LEPT_PARSE_OK, ⟨LEPT_STRING, v.n, some (s ++ [0]), s.length⟩) ∧
      lept_get_type ⟨LEPT_STRING, v.n, some (s ++ [0]), s.length⟩ = LEPT_STRING ∧
      lept_get_string_length ⟨LEPT_STRING, v.n, some (s ++ [0]), s.length⟩ = Except.ok s.length ∧
      lept_get_string ⟨LEPT_STRING, v.n, some (s ++ [0]), s.length⟩ =
        Except.ok (some (s ++ [0])) ∧
      (s ++ [0]).take s.length = s := by
  refine ⟨?_, rfl, by simp [lept_get_string_length], by simp [lept_get_string], by simp⟩
  have hdrop : (34 :: (s ++ [34])).dropWhile iswhitespace = 34 :: (s ++ [34]) :=
    dropWhile_ws_cons 34 _ (by decide)
  obtain ⟨c1, hloop, htop, hjson⟩ := lept_parse_string_closed ⟨s ++ [34], none, 0, 0⟩
    (lept_init v) s [] hs (Or.inl ⟨rfl, rfl⟩)
  have hval : lept_parse_value errno ⟨(34 :: (s ++ [34])).dropWhile iswhitespace, none, 0, 0⟩
      (lept_init v) = Except.ok (LEPT_PARSE_OK, c1,
        { lept_free (lept_init v) with
          s := some (s ++ [0]), len := s.length, type := LEPT_STRING }) := by
    rw [hdrop, lept_parse_value_string errno _ _ (s ++ [34]) rfl]
    exact hloop
  rw [lept_parse_of_value errno v _ _ _ _ hval htop, hjson]
  simp [lept_init, lept_free]

/-- Witness of C9: the text `"abc"` gives length 3 and content `abc`. -/
theorem C9_string_value_witness :
    lept_parse 0 sampleValue (bytes "\"abc\"") =
        Except.ok (LEPT_PARSE_OK, ⟨LEPT_STRING, sampleValue.n, some (bytes "abc" ++ [0]), 3⟩) ∧
      lept_get_type ⟨LEPT_STRING, sampleValue.n, some (bytes "abc" ++ [0]), 3⟩ = LEPT_STRING ∧
      lept_get_string_length ⟨LEPT_STRING, sampleValue.n, some (bytes "abc" ++ [0]), 3⟩ =
        Except.ok 3 ∧
      lept_get_string ⟨LEPT_STRING, sampleValue.n, some (bytes "abc" ++ [0]), 3⟩ =
        Except.ok (some (bytes "abc" ++ [0])) ∧
      (bytes "abc" ++ [0]).take 3 = bytes "abc" :=
  C9_string_value 0 sampleValue (bytes "abc") (by decide)

/-- C10: for every byte sequence `s` without `"` and NUL, `lept_parse('"' ++ s)`
returns `LEPT_PARSE_MISS_QUOTATION_MARK` with tag `LEPT_NULL`, and
`lept_parse_string` returns with the scratch stack's `top` at the value it had
on entry. -/
theorem C10_miss_quotation_mark (errno : Nat) (v : lept_value) (s : List Nat)
    (hs : ∀ b ∈ s, b ≠ 34 ∧ b ≠ 0) :
    lept_parse errno v (34 :: s) =
        Except.ok (LEPT_PARSE_MISS_QUOTATION_MARK, { v with type := LEPT_NULL }) ∧
      ∀ (c : lept_context) (v1 : lept_value), StackOk c → c.json = 34 :: s →
        ∃ c1, lept_parse_string c v1 = Except.ok (LEPT_PARSE_MISS_QUOTATION_MARK, c1, v1) ∧
          c1.top = c.top := by
  constructor
  · have hdrop : (34 :: s).dropWhile iswhitespace = 34 :: s := dropWhile_ws_cons 34 _ (by decide)
    obtain ⟨c1, hloop, htop⟩ := lept_parse_string_open ⟨s, none, 0, 0⟩ (lept_init v) s hs
      (Or.inl ⟨rfl, rfl⟩)
    have hval : lept_parse_value errno ⟨(34 :: s).dropWhile iswhitespace, none, 0, 0⟩
        (lept_init v) = Except.ok (LEPT_PARSE_MISS_QUOTATION_MARK, c1, lept_init v) := by
      rw [hdrop, lept_parse_value_string errno _ _ s rfl]
      exact hloop
    rw [lept_parse_of_value errno v _ _ _ _ hval htop]
    simp [lept_init]
  · intro c v1 hc hjson
    have hc1 : StackOk { c with json := s } := hc
    obtain ⟨c1, hloop, htop⟩ := lept_parse_string_open { c with json := s } v1 s hs hc1
    refine ⟨c1, ?_, htop⟩
    simp only [lept_parse_string, hjson, peek_cons, ne_eq, not_true_eq_false, if_false,
      List.tail_cons]
    exact hloop

/-- Witness of C10: the text `"abc`. -/
theorem C10_miss_quotation_mark_witness :
    lept_parse 0 sampleValue (bytes "\"abc") =
        Except.ok (LEPT_PARSE_MISS_QUOTATION_MARK, { sampleValue with type := LEPT_NULL }) ∧
      ∀ (c : lept_context) (v1 : lept_value), StackOk c → c.json = bytes "\"abc" →
        ∃ c1, lept_parse_string c v1 = Except.ok (LEPT_PARSE_MISS_QUOTATION_MARK, c1, v1) ∧
          c1.top = c.top :=
  C10_miss_quotation_mark 0 sampleValue (bytes "abc") (by decide)

/-- C11: for every text and every prior state of the output value, `lept_parse`
returns, and when the status is not `LEPT_PARSE_OK` the tag of the value is
`LEPT_NULL`. -/
theorem C11_failure_resets_tag (errno : Nat) (v : lept_value) (s : List Nat) :
    ∃ r v1, lept_parse errno v s = Except.ok (r, v1) ∧
      (r ≠ LEPT_PARSE_OK → lept_get_type v1 = LEPT_NULL) := by
  obtain ⟨ret, c2, v2, _, _, hv, h⟩ := lept_parse_returns errno v s
  by_cases hr : ret = LEPT_PARSE_OK
  · by_cases hp : peek (c2.json.dropWhile iswhitespace) = 0
    · refine ⟨LEPT_PARSE_OK, v2, ?_, fun hne => absurd rfl hne⟩
      rw [h]
      simp [hr, hp]
    · refine ⟨LEPT_PARSE_ROOT_NOT_SINGULAR, { v2 with type := LEPT_NULL }, ?_, fun _ => rfl⟩
      rw [h]
      simp [hr, hp]
  · refine ⟨ret, v2, ?_, fun _ => hv hr⟩
    rw [h]
    simp [hr]

/-- C12: for every text and every prior value, `lept_parse_value` returns to
`lept_parse` with `top` equal to zero, so `lept_parse` returns a status: neither
the assertion `c.top == 0` nor the assertion `c->top >= size` of
`lept_context_pop` (nor any other assertion of the parser) fails. -/
theorem C12_stack_empty_at_return (errno : Nat) (v : lept_value) (s : List Nat) :
    (∃ ret c2 v2,
        lept_parse_value errno (lept_parse_whitespace ⟨s, none, 0, 0⟩) (lept_init v) =
          Except.ok (ret, c2, v2) ∧ c2.top = 0) ∧
      (∃ r v1, lept_parse errno v s = Except.ok (r, v1)) ∧
      lept_parse errno v s ≠ Except.error Fault.assertion := by
  obtain ⟨ret, c2, v2, hval, htop, _, h⟩ := lept_parse_returns errno v s
  refine ⟨⟨ret, c2, v2, hval, htop⟩, ⟨_, _, h⟩, ?_⟩
  rw [h]
  simp

/-- C13 as the claim states it fails: the value that `lept_parse` leaves for the
text `"abc" x` has tag `LEPT_NULL` and still owns the payload `abc`;
`lept_free` releases a payload only under the tag `LEPT_STRING`, so this
value owns the payload after `lept_free` as before. -/
theorem C13_owned_payload_counterexample :
    lept_parse 0 sampleValue (bytes "\"abc\" x") =
        Except.ok (LEPT_PARSE_ROOT_NOT_SINGULAR,
          ⟨LEPT_NULL, sampleValue.n, some (bytes "abc" ++ [0]), 3⟩) ∧
      lept_get_type (lept_free ⟨LEPT_NULL, sampleValue.n, some (bytes "abc" ++ [0]), 3⟩) =
        LEPT_NULL ∧
      (lept_free ⟨LEPT_NULL, sampleValue.n, some (bytes "abc" ++ [0]), 3⟩).s =
        some (bytes "abc" ++ [0]) ∧
      (lept_free ⟨LEPT_NULL, sampleValue.n, some (bytes "abc" ++ [0]), 3⟩).s ≠ none := by
  refine ⟨by decide, by decide, by decide, by decide⟩

/-- C13, amended: `lept_free` is idempotent.  For every value `v`, of any tag,
one `lept_free` leaves the tag `LEPT_NULL`, and a second `lept_free` gives
exactly the state the first one gave.  A value of tag `LEPT_STRING` owns no
payload afterwards; under any other tag `lept_free` leaves the payload field
as it found it. -/
theorem C13_free_idempotent (v : lept_value) :
    lept_get_type (lept_free v) = LEPT_NULL ∧
      lept_free (lept_free v) = lept_free v ∧
      (v.type = LEPT_STRING → (lept_free v).s = none) ∧
      (v.type ≠ LEPT_STRING → (lept_free v).s = v.s) := by
  by_cases h : v.type = LEPT_STRING
  · simp [lept_free, lept_get_type, h]
  · simp [lept_free, lept_get_type, h]

/-- Witness of the amended C13: a `String` value that owns the payload `abc`. -/
theorem C13_free_idempotent_witness :
    lept_get_type (lept_free ⟨LEPT_STRING, sampleValue.n, some (bytes "abc" ++ [0]), 3⟩) =
        LEPT_NULL ∧
      lept_free (lept_free ⟨LEPT_STRING, sampleValue.n, some (bytes "abc" ++ [0]), 3⟩) =
        lept_free ⟨LEPT_STRING, sampleValue.n, some (bytes "abc" ++ [0]), 3⟩ ∧
      (lept_free ⟨LEPT_STRING, sampleValue.n, some (bytes "abc" ++ [0]), 3⟩).s = none :=
  ⟨(C13_free_idempotent ⟨LEPT_STRING, sampleValue.n, some (bytes "abc" ++ [0]), 3⟩).1,
    (C13_free_idempotent ⟨LEPT_STRING, sampleValue.n, some (bytes "abc" ++ [0]), 3⟩).2.1,
    (C13_free_idempotent ⟨LEPT_STRING, sampleValue.n, some (bytes "abc" ++ [0]), 3⟩).2.2.1 rfl⟩

/-- C14: for every prior value `v`, every byte sequence `s` and every
`len <= |s|`, `lept_set_string(v, s, len)` returns with tag `LEPT_STRING`,
`lept_get_string_length` equal to `len`, a payload whose first `len` bytes are
the first `len` bytes of `s`, and the terminator `0` at index `len`, which the
length does not count (the payload has `len + 1` bytes). -/
theorem C14_set_string (v : lept_value) (s : List Nat) (len : Nat) (hlen : len ≤ s.length) :
    lept_set_string v (some s) len =
        Except.ok ⟨LEPT_STRING, v.n, some (s.take len ++ [0]), len⟩ ∧
      lept_get_type ⟨LEPT_STRING, v.n, some (s.take len ++ [0]), len⟩ = LEPT_STRING ∧
      lept_get_string_length ⟨LEPT_STRING, v.n, some (s.take len ++ [0]), len⟩ = Except.ok len ∧
      lept_get_string ⟨LEPT_STRING, v.n, some (s.take len ++ [0]), len⟩ =
        Except.ok (some (s.take len ++ [0])) ∧
      (s.take len ++ [0]).take len = s.take len ∧
      (s.take len ++ [0]).get? len = some 0 ∧
      (s.take len ++ [0]).length = len + 1 := by
  have hl : (s.take len).length = len := by simp [hlen]
  refine ⟨?_, rfl, ?_, ?_, ?_, ?_, ?_⟩
  · by_cases h : v.type = LEPT_STRING <;> simp [lept_set_string, lept_free, h]
  · simp [lept_get_string_length]
  · simp [lept_get_string]
  · rw [List.take_append_of_le_length (by omega)]
    simp
  · rw [List.get?_eq_getElem?, List.getElem?_append_right (by omega)]
    simp [hl]
  · simp [hlen]

/-- Witness of C14: three bytes with an embedded zero byte out of four. -/
theorem C14_set_string_witness :
    lept_set_string sampleValue (some [97, 0, 98, 99]) 3 =
        Except.ok ⟨LEPT_STRING, sampleValue.n, some ([97, 0, 98, 99].take 3 ++ [0]), 3⟩ ∧
      lept_get_type ⟨LEPT_STRING, sampleValue.n, some ([97, 0, 98, 99].take 3 ++ [0]), 3⟩ =
        LEPT_STRING ∧
      lept_get_string_length
          ⟨LEPT_STRING, sampleValue.n, some ([97, 0, 98, 99].take 3 ++ [0]), 3⟩ = Except.ok 3 ∧
      lept_get_string ⟨LEPT_STRING, sampleValue.n, some ([97, 0, 98, 99].take 3 ++ [0]), 3⟩ =
        Except.ok (some ([97, 0, 98, 99].take 3 ++ [0])) ∧
      ([97, 0, 98, 99].take 3 ++ [0]).take 3 = [97, 0, 98, 99].take 3 ∧
      ([97, 0, 98, 99].take 3 ++ [0]).get? 3 = some 0 ∧
      ([97, 0, 98, 99].take 3 ++ [0]).length = 3 + 1 :=
  C14_set_string sampleValue [97, 0, 98, 99] 3 (by decide)

/-- C16 at the failing input: after `lept_parse` of the text `"abc" x` the
status is `LEPT_PARSE_ROOT_NOT_SINGULAR` and the tag is `LEPT_NULL`, but the
payload `abc` of the string that was parsed is still allocated, against the
invariant of the data model; a later `lept_free` does not release it either,
because the tag is no longer `LEPT_STRING`.  The setters, which call
`lept_free` before they assign the tag, keep the invariant. -/
theorem C16_payload_leak :
    lept_parse 0 sampleValue (bytes "\"abc\" x") =
        Except.ok (LEPT_PARSE_ROOT_NOT_SINGULAR,
          ⟨LEPT_NULL, sampleValue.n, some (bytes "abc" ++ [0]), 3⟩) ∧
      ¬ PayloadInvariant ⟨LEPT_NULL, sampleValue.n, some (bytes "abc" ++ [0]), 3⟩ ∧
      lept_free ⟨LEPT_NULL, sampleValue.n, some (bytes "abc" ++ [0]), 3⟩ =
        ⟨LEPT_NULL, sampleValue.n, some (bytes "abc" ++ [0]), 3⟩ ∧
      (∀ (v : lept_value) (b : Int), PayloadInvariant v → PayloadInvariant (lept_set_boolean v b)) ∧
      (∀ (v : lept_value) (n : Double), PayloadInvariant v →
        PayloadInvariant (lept_set_number v n)) := by
  refine ⟨by decide, ?_, by decide, ?_, ?_⟩
  · intro h
    have := h (by decide)
    simp at this
  · intro v b hv
    unfold PayloadInvariant at hv ⊢
    intro _
    by_cases h : v.type = LEPT_STRING
    · simp [lept_set_boolean, lept_free, h]
    · simp [lept_set_boolean, lept_free, h, hv h]
  · intro v n hv
    unfold PayloadInvariant at hv ⊢
    intro _
    by_cases h : v.type = LEPT_STRING
    · simp [lept_set_number, lept_free, h]
    · simp [lept_set_number, lept_free, h, hv h]

/-- C17 as the claim states it fails: on the stack state with capacity 256 and
`top = 10`, `lept_context_push(n)` with `n = 2^64 - 1`, the largest `size_t`,
does not grow the buffer although `top + n >= size`, and sets `top` to 9, not
to `top + n`: the sum `c->top + size` wraps around to 9. -/
theorem C17_wrap_counterexample :
    (⟨[], some (List.replicate 256 0), 256, 10⟩ : lept_context).top ≤
        (⟨[], some (List.replicate 256 0), 256, 10⟩ : lept_context).size ∧
      0 < 2 ^ 64 - 1 ∧ 2 ^ 64 - 1 < SIZE_MODULUS ∧ 10 + (2 ^ 64 - 1) ≥ 256 ∧
      9 ≠ 10 + (2 ^ 64 - 1) ∧
      ∀ fuel, lept_context_push_sz fuel ⟨[], some (List.replicate 256 0), 256, 10⟩ (2 ^ 64 - 1) =
        Except.ok (⟨[], some (List.replicate 256 0), 256, 9⟩, 10) := by
  refine ⟨by decide, by decide, by decide, by decide, by decide, fun fuel => ?_⟩
  unfold lept_context_push_sz
  rw [if_neg (by decide), if_neg (by decide)]
  have : (10 + (2 ^ 64 - 1)) % SIZE_MODULUS = 9 := by decide
  simp only [this]

/-- C17, amended: for every stack state with `top <= size` whose capacity is 0 or at
least 2 (with a buffer of `size` bytes), and every `n > 0` for which nothing
wraps around in `size_t` (`top + n` is below `2^64` and, when the buffer has
to grow, so is `top + n` plus its half, which bounds the grown capacity),
`lept_context_push(n)` returns the offset of the old `top`, grows the buffer
exactly when `top + n >= size`, sets `top` to the old `top + n`, leaves
`top < size`, and keeps every byte below the old `top`;
`lept_context_pop(n)` with `top >= n` sets `top` to `top - n` and returns the
region that holds the last `n` bytes in use.  The stack state is well-formed
after both. -/
theorem C17_push_pop (c : lept_context) (n : Nat) (hc : StackOk c) (hn : 0 < n)
    (hsum : c.top + n < SIZE_MODULUS)
    (hwrap : c.top + n ≥ c.size → c.top + n + (c.top + n) / 2 < SIZE_MODULUS) :
    (∃ c1, (∀ fuel, c.top + n + 2 ≤ fuel →
          lept_context_push_sz fuel c n = Except.ok (c1, c.top)) ∧
        (c.size < c1.size ↔ c.top + n ≥ c.size) ∧
        c1.top = c.top + n ∧ c1.top < c1.size ∧ c1.top ≤ c1.size ∧
        (c1.stack.getD []).take c.top = (c.stack.getD []).take c.top ∧ StackOk c1) ∧
      (n ≤ c.top →
        ∃ c1 ptr, lept_context_pop c n = Except.ok (c1, ptr) ∧
          c1.top = c.top - n ∧ c1.top ≤ c1.size ∧ c1.size = c.size ∧
          (ptr.getD []).take n = (used c).drop (c.top - n) ∧ StackOk c1) := by
  constructor
  · obtain ⟨c1, hpush, hok, htop, hlt, _, hgrow, hsame, hkeep⟩ := lept_context_push_ok c n hc hn
    refine ⟨c1, fun fuel hfuel => lept_context_push_sz_eq fuel c n hsum hwrap hfuel _ hpush, ?_, htop,
      hlt, Nat.le_of_lt hlt, hkeep, hok⟩
    constructor
    · intro hlt2
      by_contra hge
      have := (hsame hge).1
      omega
    · intro hge
      exact (hgrow hge).1
  · intro hle
    obtain ⟨ptr, hpop, hok, hreg⟩ := lept_context_pop_ok c n hc hle
    refine ⟨_, ptr, hpop, rfl, ?_, rfl, hreg, hok⟩
    rcases hc with ⟨hs, ht⟩ | ⟨_, hle2, _⟩
    · simp only
      omega
    · simp only
      omega

/-- Witness of the amended C17: a push of two bytes onto, and a pop of two bytes
from, a stack of capacity 4 that holds three bytes. -/
theorem C17_push_pop_witness :
    (∃ c1, (∀ fuel, 3 + 2 + 2 ≤ fuel →
          lept_context_push_sz fuel ⟨[], some [97, 98, 99, 0], 4, 3⟩ 2 = Except.ok (c1, 3)) ∧
        (4 < c1.size ↔ 3 + 2 ≥ 4) ∧
        c1.top = 3 + 2 ∧ c1.top < c1.size ∧ c1.top ≤ c1.size ∧
        (c1.stack.getD []).take 3 = [97, 98, 99] ∧ StackOk c1) ∧
      (2 ≤ 3 →
        ∃ c1 ptr, lept_context_pop ⟨[], some [97, 98, 99, 0], 4, 3⟩ 2 = Except.ok (c1, ptr) ∧
          c1.top = 3 - 2 ∧ c1.top ≤ c1.size ∧ c1.size = 4 ∧
          (ptr.getD []).take 2 = [98, 99] ∧ StackOk c1) :=
  C17_push_pop ⟨[], some [97, 98, 99, 0], 4, 3⟩ 2
    (Or.inr ⟨by decide, by decide, [97, 98, 99, 0], rfl, rfl⟩) (by decide) (by decide)
    (fun _ => by decide)

set_option exponentiation.threshold 2000 in
set_option maxRecDepth 100000 in
/-- C18 at the failing inputs: for the text `0x10` the validated span is `0`
(the cursor is left at `x10`), yet the number stored is 16, not the conversion
of `0`; for `0123` the span is `0` and the number stored is 123; and
`lept_parse` of `0123e999` returns `LEPT_PARSE_NUMBER_TOO_BIG` although the
validated span is `0`. -/
theorem C18_converts_longer_text :
    lept_parse_number 0 ⟨bytes "0x10", none, 0, 0⟩ sampleValue =
        (LEPT_PARSE_OK, ⟨bytes "x10", none, 0, 0⟩,
          { sampleValue with n := Double.finite ⟨false, 16, 2, 0⟩, type := LEPT_NUMBER }) ∧
      (strtod 0 (bytes "0")).1 = Double.finite ⟨false, 0, 10, 0⟩ ∧
      lept_parse_number 0 ⟨bytes "0123", none, 0, 0⟩ sampleValue =
        (LEPT_PARSE_OK, ⟨bytes "123", none, 0, 0⟩,
          { sampleValue with n := Double.finite ⟨false, 123, 10, 0⟩, type := LEPT_NUMBER }) ∧
      lept_parse 0 sampleValue (bytes "0123e999") =
        Except.ok (LEPT_PARSE_NUMBER_TOO_BIG,
          { sampleValue with n := Double.inf false, type := LEPT_NULL }) := by
  refine ⟨by decide, by decide, by decide, by decide⟩

/-- C19: leading and trailing whitespace does not change the outcome: for every
text `s` without NUL and every two sequences `a`, `b` of whitespace bytes
(possibly empty), `lept_parse(a ++ s ++ b)` returns what `lept_parse(s)`
returns, the same status and the same value. -/
theorem C19_whitespace_around (errno : Nat) (v : lept_value) (s a b : List Nat)
    (hs : ∀ x ∈ s, x ≠ 0) (ha : ∀ x ∈ a, iswhitespace x = true)
    (hb : ∀ x ∈ b, iswhitespace x = true) :
    lept_parse errno v (a ++ (s ++ b)) = lept_parse errno v s ∧
      ∃ r v1, lept_parse errno v s = Except.ok (r, v1) := by
  refine ⟨?_, ?_⟩
  swap
  · obtain ⟨ret, c2, v2, _, _, _, h⟩ := lept_parse_returns errno v s
    exact ⟨_, _, h⟩
  rw [lept_parse_congr errno v (a ++ (s ++ b)) (s ++ b) (dropWhile_ws_append a _ ha)]
  rcases b with _ | ⟨b0, z⟩
  · rw [List.append_nil]
  · have hb0 : iswhitespace b0 = true := hb b0 (List.mem_cons_self b0 z)
    have hz : ∀ x ∈ z, iswhitespace x = true := fun x hx => hb x (List.mem_cons_of_mem b0 hx)
    by_cases hy : s.dropWhile iswhitespace = []
    · apply lept_parse_congr
      have hall : ∀ x ∈ s, iswhitespace x = true := by
        simpa [List.dropWhile_eq_nil_iff] using hy
      have hw0 : (b0 :: z).dropWhile iswhitespace = [] := by
        have := dropWhile_ws_append (b0 :: z) [] hb
        simpa using this
      rw [dropWhile_ws_append s _ hall, hw0, hy]
    · have hnul : ∀ x ∈ s.dropWhile iswhitespace, x ≠ 0 :=
        fun x hx => hs x ((List.dropWhile_suffix iswhitespace).subset hx)
      obtain ⟨ret, c2, c3, v2, hval, hext, htop2, htop3, hjson⟩ :=
        lept_parse_value_append_ws errno ⟨s.dropWhile iswhitespace, none, 0, 0⟩ (lept_init v)
          b0 z (Or.inl ⟨rfl, rfl⟩) hy hnul hb0 hz
      dsimp only at hext htop2 htop3
      rw [← dropWhile_append_of_ne_nil iswhitespace s (b0 :: z) hy] at hext
      rw [lept_parse_of_value errno v _ _ _ _ hval htop2,
        lept_parse_of_value errno v _ _ _ _ hext htop3]
      by_cases hr : ret = LEPT_PARSE_OK
      · rw [(hjson hr).1, peek_dropWhile_append_ws c2.json (b0 :: z) hb]
      · simp [hr]

/-- Witness of C19: the text `true` between a space and a tab in front and a
line feed behind. -/
theorem C19_whitespace_around_witness :
    lept_parse 0 sampleValue (bytes " \t" ++ (bytes "true" ++ bytes "\n")) =
        lept_parse 0 sampleValue (bytes "true") ∧
      ∃ r v1, lept_parse 0 sampleValue (bytes "true") = Except.ok (r, v1) :=
  C19_whitespace_around 0 sampleValue (bytes "true") (bytes " \t") (bytes "\n")
    (by decide) (by decide) (by decide)

set_option exponentiation.threshold 2000 in
set_option maxRecDepth 100000 in
/-- C20: the result of `lept_parse` does not depend on the value `errno` holds
before the call: for any two values of `errno`, every prior value and every
text, the status and the value left are the same; and the text `1` is a
`Number` also when `errno` is `ERANGE` at the call. -/
theorem C20_errno_independent (e1 e2 : Nat) (v : lept_value) (s : List Nat) :
    lept_parse e1 v s = lept_parse e2 v s ∧
      lept_parse ERANGE v (bytes "1") =
        Except.ok (LEPT_PARSE_OK,
          { v with n := Double.finite ⟨false, 1, 10, 0⟩, type := LEPT_NUMBER }) := by
  constructor
  · unfold lept_parse
    simp only [lept_parse_value_errno e1 e2]
  · have hg : NumberGrammar (bytes "1") := (NumberGrammar_iff _).2 (by decide)
    rw [lept_parse_number_text ERANGE v _ hg]
    have hs : strtodExact (bytes "1") = ⟨false, 1, 10, 0⟩ := by decide
    have ho : (strtodExact (bytes "1")).overflows = false := by decide
    rw [if_neg (by rw [ho]; decide), hs]

end Leptjson
